import Mathlib

/-!
Shallow embedding of `src/syft/frameworks/torch/mpc/securenn.py`: the SecureNN
two-party protocols (private compare, most-significant bit, share conversion,
relu derivative, division, maxpool) over additive secret shares held by two
data holders with a crypto-provider helper.

Modelling conventions.

* A shared tensor is modelled element-wise by its reconstructed value: the
  canonical residue modulo its `field` of the integer sum of the two holders'
  shares.  The external sharing engine (out of scope of the source file, its
  interface is fixed by the spec) acts linearly on shares, so every in-field
  protocol step maps to arithmetic `% field` on this value.  The asymmetric
  role index `j` (0 on the first holder, 1 on the second) contributes its sum
  over the two roles to the reconstructed value; formulas below are written as
  the explicit sum of the two holders' local terms wherever `j` occurs.
* `toSigned` models the engine's reveal/reconstruct: the spec fixes balanced
  signed encoding with representable range `[-(field/2), (field-1)/2]`.
* Cross-field steps (share conversion from `L` to `L - 1`) depend on the
  actual integer sum of the two shares, not only on its residue; that sum is
  `toSigned field v + wrap * field` for some integer `wrap` (0 when the two
  shares add up without wrapping), and `wrap` is an explicit parameter.
* torch integer tensors divide and `fmod` truncating toward zero, hence
  `Int.tdiv` / `Int.tmod` in `decompose`.
* All sampled randomness (common masking bits, the helper's blinding value,
  blinding scalars, the bit permutation, share wraps) is passed explicitly;
  validity predicates state the sampler ranges from the source.
* Fresh shares of zero add 0 to a reconstructed value, so they disappear in
  the value-level model; the protocol lines that add them are noted inline.
-/

namespace SecureNN

/-- Source: `p = 67`, the small prime field used for additive sharing of bit
decompositions. -/
def p : ℕ := 67

/-- Source `Q_BITS(field)`: storage bit width, `64 if field > 2 ** 32 else 32`. -/
def Q_BITS (field : ℕ) : ℕ := if 2 ^ 32 < field then 64 else 32

/-- Source `get_n_bits(field) = round(math.log(field, 2))`.  The rounded
base-two logarithm equals `Nat.log 2 field` plus one exactly when
`2 ^ (2 * log + 1) ≤ field ^ 2` (fractional part at least one half; exact
halves cannot occur for integer `field`).  The filter scan computes
`Nat.log 2 field` in a kernel-reducible way for every storable field
(the protocols store fields in at most 64 bits; the scan is exact up to
`2 ^ 128`). -/
def get_n_bits (field : ℕ) : ℕ :=
  let lg := ((List.range 128).filter fun i => decide (2 ^ (i + 1) ≤ field)).length
  if 2 ^ (2 * lg + 1) ≤ field ^ 2 then lg + 1 else lg

/-- Source `get_max_val_field(field) = (field - 1) // 2`. -/
def get_max_val_field (field : ℕ) : ℕ := (field - 1) / 2

/-- Source `get_min_val_field(field) = -(field // 2)`. -/
def get_min_val_field (field : ℕ) : ℤ := -((field / 2 : ℕ) : ℤ)

/-- Source `get_r_mask(field) = (field // 2) - 1`, the constant compared
against `r` in `private_compare`. -/
def get_r_mask (field : ℕ) : ℕ := field / 2 - 1

/-- The storage dtype classes of shared tensors: `long`/`int` are the standard
classes picked by field size, `custom` is the bridging class for shares whose
field differs from their storage width. -/
inductive Dtype : Type where
  | long : Dtype
  | int : Dtype
  | custom : Dtype
  deriving DecidableEq

/-- Source `get_dtype(field)`: `"long" if field > 2 ** 32 else "int"`. -/
def get_dtype (field : ℕ) : Dtype := if 2 ^ 32 < field then .long else .int

/-- Modelled from the spec: the external additive-sharing engine's
reveal/reconstruct (the engine itself is out of scope of the source file).
Values are encoded in balanced signed form: the canonical residue `m` of the
share sum is reported as `m` when `m ≤ (field - 1) / 2` and as `m - field`
otherwise, giving the representable range `[-(field / 2), (field - 1) / 2]`. -/
def toSigned (field : ℕ) (v : ℤ) : ℤ :=
  let m := v % (field : ℤ)
  if m ≤ (get_max_val_field field : ℤ) then m else m - (field : ℤ)

/-- Source `decompose(tensor, field)`: little-endian bit expansion over
`n_bits = get_n_bits(field)` positions, `tensor = torch.fmod(tensor / moduli, 2)`
with `moduli = 2 ** i`.  torch integer division and `fmod` truncate toward
zero, which matters for negative inputs. -/
def decompose (t : ℤ) (field : ℕ) : List ℤ :=
  (List.range (get_n_bits field)).map fun i => Int.tmod (Int.tdiv t (2 ^ i)) 2

/-- Source `flip(x, dim, dtype)` on the last axis of a length-`l` tensor:
reverse the element order. -/
def flip (l : ℕ) (f : ℕ → ℤ) : ℕ → ℤ := fun i => f (l - 1 - i)

/-- torch `cumsum` on the last axis of a length-`l` tensor: partial sums. -/
def cumsum (l : ℕ) (f : ℕ → ℤ) : ℕ → ℤ := fun i => ∑ k ∈ Finset.range (min (i + 1) l), f k

/-- The common randomness drawn at the top of `private_compare`:
`s, u = torch.randint(1, p, shape)` replicated to both holders, and
`perm = torch.randperm(shape[-1])`. -/
structure PCRand : Type where
  s : ℕ → ℤ
  u : ℕ → ℤ
  perm : ℕ → ℕ

/-- Sampler ranges of `private_compare`'s common randomness: `s` and `u` lie
in `[1, p - 1]` and `perm` permutes the bit positions `0, ..., l - 1`. -/
def PCRand.Valid (ρ : PCRand) (l : ℕ) : Prop :=
  (∀ i, i < l → 1 ≤ ρ.s i ∧ ρ.s i < (p : ℤ)) ∧
  (∀ i, i < l → 1 ≤ ρ.u i ∧ ρ.u i < (p : ℤ)) ∧
  (∀ i, i < l → ρ.perm i < l) ∧
  (∀ i, i < l → ∀ j, j < l → ρ.perm i = ρ.perm j → i = j)

/-- Position `i` of the bit expansion `decompose t L` (used for `r_bit` and
`t_bit` in `private_compare`). -/
def bitf (t : ℤ) (L : ℕ) : ℕ → ℤ := fun i => (decompose t L).getD i 0

/-- Source lines 212/219: `w = x_bit_sh + (j * b) - (2 * b * x_bit_sh)` for a
public bit vector `b`, summed over the two roles `j = 0, 1` (the `j * b` term
contributes once). -/
def pc_w (x b : ℕ → ℤ) : ℕ → ℤ := fun i => x i + b i - 2 * b i * x i

/-- Source lines 214/221: `wc = w.flip(-1).cumsum(-1).flip(-1) - w` on the
length-`l` bit axis. -/
def pc_wc (l : ℕ) (w : ℕ → ℤ) : ℕ → ℤ := fun i => flip l (cumsum l (flip l w)) i - w i

/-- Source line 215: `c_beta0 = -x_bit_sh + (j * r_bit) + j + wc`, summed
over the two roles. -/
def pc_cbeta0 (l : ℕ) (x rb : ℕ → ℤ) : ℕ → ℤ :=
  fun i => -(x i) + rb i + 1 + pc_wc l (pc_w x rb) i

/-- Source line 222: `c_beta1 = x_bit_sh + (-j * t_bit) + j + wc`, summed
over the two roles. -/
def pc_cbeta1 (l : ℕ) (x tb : ℕ → ℤ) : ℕ → ℤ :=
  fun i => x i - tb i + 1 + pc_wc l (pc_w x tb) i

/-- Source lines 226-233: the vector used when `beta == 1` and
`r == 2^l - 1`: `c_igt1 = (1 - j) * (u + 1) - (j * u)` and
`c_ie1 = (1 - 2 * j) * u` (each summed over the two roles `j = 0, 1`),
blended by `l1_mask`, the indicator of the first (least significant)
position: `c_else = (l1_mask * c_ie1) + ((1 - l1_mask) * c_igt1)`. -/
def pc_celse (u : ℕ → ℤ) : ℕ → ℤ :=
  let c_igt1 : ℕ → ℤ := fun i =>
    ((1 - 0) * (u i + 1) - 0 * u i) + ((1 - 1) * (u i + 1) - 1 * u i)
  let c_ie1 : ℕ → ℤ := fun i => (1 - 2 * 0) * u i + (1 - 2 * 1) * u i
  let l1_mask : ℕ → ℤ := fun i => if i = 0 then 1 else 0
  fun i => l1_mask i * c_ie1 i + (1 - l1_mask i) * c_igt1 i

/-- The per-position vector `c` built by `private_compare` (source lines
205-240) at the level of reconstructed values, before blinding:
`t = r + 1`, `t_bit = decompose(t, L)`, `r_bit = decompose(r, L)`,
`r_mask = (r == get_r_mask(L))`, and
`c = (1 - beta) * c_beta0 + (beta * (1 - r_mask)) * c_beta1
+ (beta * r_mask) * c_else`, so that no control flow depends on the data. -/
def pc_c (x_bit : List ℤ) (r : ℤ) (beta : ℤ) (L : ℕ) (u : ℕ → ℤ) : ℕ → ℤ :=
  let l := x_bit.length
  let x : ℕ → ℤ := fun i => x_bit.getD i 0
  let r_mask : ℤ := if r = (get_r_mask L : ℤ) then 1 else 0
  fun i =>
    (1 - beta) * pc_cbeta0 l x (bitf r L) i
      + (beta * (1 - r_mask)) * pc_cbeta1 l x (bitf (r + 1) L) i
      + (beta * r_mask) * pc_celse u i

/-- Source `private_compare(x_bit_sh, r, beta, L)` at the level of
reconstructed values.  `x_bit` is the reconstructed bit sharing (field `p`),
`r` and `beta` are the public values replicated to the two holders, `L` the
field `r` was encoded under.  The per-position vector `pc_c` is blinded by
the common scalars `s`, permuted along the bit axis by the common
permutation, and opened by the crypto provider, whose observable output is
the count of zero residues (mod `p`, the field the bit shares live in). -/
def private_compare (x_bit : List ℤ) (r : ℤ) (beta : ℤ) (L : ℕ) (ρ : PCRand) : ℤ :=
  let l := x_bit.length
  let c : ℕ → ℤ := pc_c x_bit r beta L ρ.u
  -- 14) mask = s * c, permuted along the bit axis
  let mask : ℕ → ℤ := fun i => ρ.s i * c i
  let permuted_mask : ℕ → ℤ := fun i => mask (ρ.perm i)
  -- 15) the crypto provider opens the vector (shares live in field p) and
  -- counts its zero entries
  (((Finset.range l).filter fun i => permuted_mask i % (p : ℤ) = 0).card : ℤ)

/-- The randomness consumed by one `msb` call: the common masking bit `beta`,
the crypto provider's blinding value `x` (sampled in
`[0, get_max_val_field (L - 1))`; note `torch.tensor(a_sh.shape)` makes it a
single value broadcast over the input), and the `private_compare`
randomness. -/
structure MSBRand : Type where
  beta : ℤ
  x : ℤ
  pc : PCRand

/-- Sampler ranges for `msb`'s randomness, at input value `a_val`, plus the
requirement that the revealed blinded value `r = reveal(2 a + x)` is
nonnegative (the revealed value is balanced-signed; `decompose` of a negative
`r` produces out-of-range bit values, see the relu-derivative analysis). -/
def MSBOK (L : ℕ) (a_val : ℤ) (ρ : MSBRand) : Prop :=
  (ρ.beta = 0 ∨ ρ.beta = 1) ∧
  0 ≤ ρ.x ∧ ρ.x < (get_max_val_field (L - 1) : ℤ) ∧
  ρ.pc.Valid (get_n_bits L) ∧
  0 ≤ toSigned (L - 1) ((a_val * 2 + ρ.x) % ((L : ℤ) - 1))

/-- Source `msb(a_sh)` at the level of reconstructed values.  `a_val` is the
canonical value of the input sharing, whose field is `L - 1` (the source sets
`L = a_sh.field + 1`).  Shares of zero (`u`) add 0 and are dropped. -/
def msb (L : ℕ) (a_val : ℤ) (ρ : MSBRand) : ℤ :=
  -- 2)  y_sh = a_sh * 2 ; r_sh = y_sh + x_sh   (field L - 1)
  let y : ℤ := (a_val * 2) % ((L : ℤ) - 1)
  let r_can : ℤ := (y + ρ.x) % ((L : ℤ) - 1)
  -- 3)  r = r_sh.reconstruct() ; r_0 = decompose(r, L)[..., 0]
  let r : ℤ := toSigned (L - 1) r_can
  let r_0 : ℤ := (decompose r L).getD 0 0
  -- 1)  x_bit = decompose(x, L), shared in field p
  let x_bit : List ℤ := decompose ρ.x L
  -- 4)  beta_prime = private_compare(x_bit_sh, r, beta, L)
  let beta_prime : ℤ := private_compare x_bit r ρ.beta L ρ.pc
  -- 7)  gamma = beta_prime_sh + (j * beta) - (2 * beta * beta_prime_sh)  (field L)
  let gamma : ℤ := (beta_prime + ρ.beta - 2 * ρ.beta * beta_prime) % (L : ℤ)
  -- 8)  delta = x_bit_sh_0 + (j * r_0) - (2 * r_0 * x_bit_sh_0)  (field L)
  let delta : ℤ := (x_bit.getD 0 0 + r_0 - 2 * r_0 * x_bit.getD 0 0) % (L : ℤ)
  -- 9)  theta = gamma * delta ; 10)  a = gamma + delta - (theta * 2) + u
  let theta : ℤ := (gamma * delta) % (L : ℤ)
  (gamma + delta - theta * 2) % (L : ℤ)

/-- Source `share_convert(a_sh)` at share level: the only live code re-shares
by adding fresh shares of zero generated in field `L - 1`
(`y_sh = u_sh + a_sh`); the overflow-correction steps of the SecureNN paper
are commented out in the source.  `s0, s1` are the input sharing's two shares
(field `L`), `z0, z1` the zero sharing's shares (field `L - 1`,
`z0 + z1 ≡ 0 (mod L - 1)`). -/
def share_convert (L : ℕ) (s0 s1 z0 z1 : ℤ) : ℤ × ℤ :=
  ((s0 + z0) % ((L : ℤ) - 1), (s1 + z1) % ((L : ℤ) - 1))

/-- The randomness consumed by one `relu_deriv` call: the wrap multiple of the
share-convert input (the two shares of `y_sh = a_sh * 2` sum to
`toSigned L y + wrap * L`; `wrap = 0` when they add up without wrapping), and
the `msb` randomness. -/
structure RDRand : Type where
  wrap : ℤ
  mr : MSBRand

/-- Well-formed randomness for one `relu_deriv` call on the sharing with
canonical value `a_can`: no share wrap at the conversion, and well-formed
`msb` randomness at the converted value. -/
def RDOK (L : ℕ) (a_can : ℤ) (ρ : RDRand) : Prop :=
  ρ.wrap = 0 ∧
  MSBOK L ((toSigned L ((a_can * 2) % (L : ℤ))) % ((L : ℤ) - 1)) ρ.mr

/-- Source `relu_deriv(a_sh)` at the level of reconstructed values, for a
sharing with canonical value `a_can` in field `L`:
`y_sh = a_sh * 2`, then `share_convert` to field `L - 1` (the two shares of
`y_sh` sum to `toSigned L y + wrap * L`), then `msb`, then
`gamma_sh = j - alpha_sh + u`, summed over the two roles. -/
def relu_deriv (L : ℕ) (a_can : ℤ) (ρ : RDRand) : ℤ :=
  -- 1)  y_sh = a_sh * 2
  let y : ℤ := (a_can * 2) % (L : ℤ)
  -- 2)  y_sh = share_convert(y_sh) : value of the re-fielded sharing
  let conv : ℤ := (toSigned L y + ρ.wrap * (L : ℤ)) % ((L : ℤ) - 1)
  -- 3)  alpha_sh = msb(y_sh)
  let alpha : ℤ := msb L conv ρ.mr
  -- 4)  gamma_sh = j - alpha_sh + u, summed over j = 0 and j = 1
  (0 + 1 - alpha) % (L : ℤ)

/-- Metadata of an additive sharing as checked by `select_share`. -/
structure ASTMeta : Type where
  field : ℕ
  dtype : Dtype

/-- Source `select_share(alpha_sh, x_sh, y_sh)`.  The assert at the top checks
`alpha_sh.dtype == x_sh.dtype == y_sh.dtype != "custom"` and raises before any
remote operation; the protocol itself is
`z_sh = x_sh + alpha_sh * (y_sh - x_sh) + u_sh` in field `alpha_sh.field`. -/
def select_share (a x y : ASTMeta) (alpha_v x_v y_v : ℤ) : Except String ℤ :=
  if a.dtype = x.dtype ∧ x.dtype = y.dtype ∧ y.dtype ≠ Dtype.custom then
    let L := a.field
    -- 1)  w_sh = y_sh - x_sh ; 2)  c_sh = alpha_sh * w_sh ; 3)  z_sh = x_sh + c_sh + u_sh
    let w : ℤ := (y_v - x_v) % (L : ℤ)
    let c : ℤ := (alpha_v * w) % (L : ℤ)
    Except.ok ((x_v + c) % (L : ℤ))
  else
    Except.error "custom dtype shares are unsupported in SecureNN"

/-- The value computed by `select_share` once the dtype assert has passed:
`x + alpha * (y - x) + u` in field `L`. -/
def select_share_val (L : ℕ) (alpha_v x_v y_v : ℤ) : ℤ :=
  let w : ℤ := (y_v - x_v) % (L : ℤ)
  let c : ℤ := (alpha_v * w) % (L : ℤ)
  (x_v + c) % (L : ℤ)

/-- Source `division`, lines 525-526: `if bit_len_max is None:
bit_len_max = Q_BITS(L) // 2`. -/
def division_bit_len (bit_len_max : Option ℕ) (L : ℕ) : ℕ :=
  bit_len_max.getD (Q_BITS L / 2)

/-- The loop of `division` (source lines 541-559), processing trial bit
positions `i = bit_len_max - 1, ..., 0`; `u` is the running amount used.
`w_sh[i]` and the final `s_sh` are shares of zero and add 0.  Returns the
reconstructed quotient `sum(ks)`. -/
def division_go (L : ℕ) (x y : ℤ) (ρs : ℕ → RDRand) : ℕ → ℤ → ℤ
  | 0, _ => 0
  | i + 1, u =>
    -- 3)  z_sh = x_sh - u_sh - 2 ** i * y_sh + w_sh[i]
    let ty : ℤ := (2 ^ i * y) % (L : ℤ)
    let z : ℤ := (x - u - ty) % (L : ℤ)
    -- 4)  beta_sh = relu_deriv(z_sh)
    let beta : ℤ := relu_deriv L z (ρs i)
    -- 5)  v_sh = beta_sh * (2 ** i * y_sh)
    let v : ℤ := (beta * ty) % (L : ℤ)
    -- 6)  k_sh = beta_sh * 2 ** i
    let k : ℤ := (beta * 2 ^ i) % (L : ℤ)
    -- 7)  u_sh = u_sh + v_sh ; 9)  q = sum(ks) + s_sh
    (k + division_go L x y ρs i ((u + v) % (L : ℤ))) % (L : ℤ)

/-- The per-step quotient bits `beta` produced by `division`'s loop, most
significant trial position first (mirrors `division_go`). -/
def division_bits (L : ℕ) (x y : ℤ) (ρs : ℕ → RDRand) : ℕ → ℤ → List ℤ
  | 0, _ => []
  | i + 1, u =>
    let ty : ℤ := (2 ^ i * y) % (L : ℤ)
    let z : ℤ := (x - u - ty) % (L : ℤ)
    let beta : ℤ := relu_deriv L z (ρs i)
    let v : ℤ := (beta * ty) % (L : ℤ)
    beta :: division_bits L x y ρs i ((u + v) % (L : ℤ))

/-- Source `division(x_sh, y_sh, bit_len_max)` at the level of reconstructed
values (element-wise; `x`, `y` are the canonical values of the operands). -/
def division (L : ℕ) (x y : ℤ) (bit_len_max : Option ℕ) (ρs : ℕ → RDRand) : ℤ :=
  division_go L x y ρs (division_bit_len bit_len_max L) 0

/-- Well-formed randomness for every step of `division`'s loop (mirrors
`division_go`'s recursion). -/
def DivOK (L : ℕ) (x y : ℤ) (ρs : ℕ → RDRand) : ℕ → ℤ → Prop
  | 0, _ => True
  | i + 1, u =>
    let ty : ℤ := (2 ^ i * y) % (L : ℤ)
    let z : ℤ := (x - u - ty) % (L : ℤ)
    RDOK L z (ρs i) ∧
    DivOK L x y ρs i ((u + (relu_deriv L z (ρs i) * ty) % (L : ℤ)) % (L : ℤ))

/-- The tournament loop of `maxpool` (source lines 601-617): state is the pair
of canonical values of `(max_sh, ind_sh)`; `i` is the next flat index,
`steps` the number of remaining iterations. -/
def maxpool_go (L : ℕ) (x : ℕ → ℤ) (ρs : ℕ → RDRand) : ℕ → ℕ → ℤ × ℤ → ℤ × ℤ
  | _, 0, st => st
  | i, steps + 1, st =>
    -- 3)  w_sh = x_sh[i] - max_sh
    let w : ℤ := (x i - st.1) % (L : ℤ)
    -- 4)  beta_sh = relu_deriv(w_sh)
    let beta : ℤ := relu_deriv L w (ρs i)
    -- 5)  max_sh = select_share(beta_sh, max_sh, x_sh[i])
    let mx : ℤ := select_share_val L beta st.1 (x i % (L : ℤ))
    -- 6) 7)  ind_sh = select_share(beta_sh, ind_sh, k)
    let ind : ℤ := select_share_val L beta st.2 ((i : ℤ) % (L : ℤ))
    maxpool_go L x ρs (i + 1) steps (mx, ind)

/-- Source `maxpool(x_sh)` over a flattened length-`n` tensor with canonical
element values `x`: running max starts at element 0, running index at a
sharing of 0; returns the reconstructed `(max, index)` (the trailing shares of
zero `u_sh`, `v_sh` add 0). -/
def maxpool (L : ℕ) (n : ℕ) (x : ℕ → ℤ) (ρs : ℕ → RDRand) : ℤ × ℤ :=
  maxpool_go L x ρs 1 (n - 1) (x 0 % (L : ℤ), 0)

/-- Well-formed randomness for every step of `maxpool`'s tournament (mirrors
`maxpool_go`'s recursion). -/
def MaxOK (L : ℕ) (x : ℕ → ℤ) (ρs : ℕ → RDRand) : ℕ → ℕ → ℤ × ℤ → Prop
  | _, 0, _ => True
  | i, steps + 1, st =>
    let w : ℤ := (x i - st.1) % (L : ℤ)
    RDOK L w (ρs i) ∧
    MaxOK L x ρs (i + 1) steps
      (select_share_val L (relu_deriv L w (ρs i)) st.1 (x i % (L : ℤ)),
       select_share_val L (relu_deriv L w (ρs i)) st.2 ((i : ℤ) % (L : ℤ)))

/-- The plaintext tournament that `maxpool` implements: replace the running
maximum (and index) whenever the new element is greater than or equal to it. -/
def maxpool_spec (x : ℕ → ℤ) : ℕ → ℕ → ℤ × ℤ → ℤ × ℤ
  | _, 0, st => st
  | i, steps + 1, st =>
    maxpool_spec x (i + 1) steps (if st.1 ≤ x i then (x i, (i : ℤ)) else st)

/-- Bit `i` of a natural number: `x / 2 ^ i % 2`. -/
def nbit (x i : ℕ) : ℕ := x / 2 ^ i % 2

/-- The sum, over positions strictly more significant than `i`, of a
length-`l` little-endian vector: the quantity `private_compare` builds with
`flip`, `cumsum`, `flip`. -/
def suffixSum (l : ℕ) (f : ℕ → ℤ) (i : ℕ) : ℤ := ∑ k ∈ Finset.Ico (i + 1) l, f k

/-- The exclusive-or expression used on bit values throughout the source:
`a + b - 2 * b * a`. -/
def xor01 (a b : ℤ) : ℤ := a + b - 2 * b * a

/-- The per-position comparison vector of `private_compare` in closed form:
position `i` holds `br i - bx i + 1` plus the count of more significant
positions where the two bit vectors differ.  `c_beta0` is `cvec l x_bit r_bit`
and `c_beta1` is `cvec l t_bit x_bit`. -/
def cvec (l : ℕ) (bx br : ℕ → ℤ) (i : ℕ) : ℤ :=
  -(bx i) + br i + 1 + suffixSum l (fun k => xor01 (bx k) (br k)) i

/-- Number of zero entries among the first `l` positions. -/
def zeroCount (l : ℕ) (f : ℕ → ℤ) : ℕ :=
  ((Finset.range l).filter fun i => f i = 0).card

/-- The weighted value of the quotient-bit list produced by `division`
(most significant first): `bitsum [b_{k-1}, ..., b_0] = ∑ b_i * 2 ^ i`. -/
def bitsum : List ℤ → ℤ
  | [] => 0
  | b :: rest => b * 2 ^ rest.length + bitsum rest

/-- Concrete per-call randomness for replaying executions: no share wrap,
masking bit 0, helper blinding value `t`, all private-compare blinding scalars
1, identity permutation. -/
def rdr (t : ℤ) : RDRand :=
  ⟨0, ⟨0, t, ⟨fun _ => 1, fun _ => 1, fun i => i⟩⟩⟩

/-! ### Facts about the field encodings and the reveal -/

theorem get_max_val_field_cast (f : ℕ) (hf : 1 ≤ f) :
    (get_max_val_field f : ℤ) = ((f : ℤ) - 1) / 2 := by
  unfold get_max_val_field
  omega

theorem toSigned_eq_self (f : ℕ) (v : ℤ) (h0 : 0 < f)
    (h1 : -(f : ℤ) ≤ 2 * v) (h2 : 2 * v ≤ (f : ℤ) - 1) : toSigned f v = v := by
  unfold toSigned
  rw [get_max_val_field_cast f (by omega)]
  rcases le_or_lt 0 v with hv | hv
  · have hvf : v < (f : ℤ) := by omega
    rw [Int.emod_eq_of_lt hv hvf]
    have : v ≤ ((f : ℤ) - 1) / 2 := by
      rw [Int.le_ediv_iff_mul_le (by norm_num : (0:ℤ) < 2)]
      omega
    simp [this]
  · have hmod : v % (f : ℤ) = v + f := by
      have h3 : (0 : ℤ) ≤ v + f := by omega
      have h4 : v + f < (f : ℤ) := by omega
      calc v % (f : ℤ) = (v + f * 1) % (f : ℤ) := by rw [Int.add_mul_emod_self_left]
        _ = v + f := by rw [mul_one, Int.emod_eq_of_lt h3 h4]
    rw [hmod]
    have hgt : ((f : ℤ) - 1) / 2 < v + f := by
      rw [Int.ediv_lt_iff_lt_mul (by norm_num : (0:ℤ) < 2)]
      omega
    rw [if_neg (by omega)]
    ring

theorem toSigned_congr (f : ℕ) (v w : ℤ) (h : v % (f : ℤ) = w % (f : ℤ)) :
    toSigned f v = toSigned f w := by
  unfold toSigned
  rw [h]

theorem toSigned_of_lt (f : ℕ) (v : ℤ) (h0 : 0 ≤ v) (h1 : v < (f : ℤ)) :
    toSigned f v = if v ≤ (get_max_val_field f : ℤ) then v else v - f := by
  unfold toSigned
  rw [Int.emod_eq_of_lt h0 h1]

/-! ### Facts about `get_n_bits` -/

theorem range_filter_length (N m : ℕ) :
    (((List.range N).filter fun i => decide (i < m)).length) = min m N := by
  induction N with
  | zero => simp
  | succ n ih =>
    rw [List.range_succ, List.filter_append, List.length_append, ih]
    by_cases h : n < m
    · simp only [List.filter_cons, List.filter_nil, decide_eq_true_eq, if_pos h]
      simp
      omega
    · simp only [List.filter_cons, List.filter_nil, decide_eq_true_eq, if_neg h]
      simp
      omega

theorem get_n_bits_log (L : ℕ) (hL : 2 ≤ L) (h64 : L ≤ 2 ^ 64) :
    get_n_bits L = Nat.log 2 L ∨ get_n_bits L = Nat.log 2 L + 1 := by
  have hL0 : L ≠ 0 := by omega
  have hlog64 : Nat.log 2 L ≤ 64 := by
    calc Nat.log 2 L ≤ Nat.log 2 (2 ^ 64) := Nat.log_mono_right h64
      _ = 64 := Nat.log_pow (by norm_num : 1 < 2) 64
  have hfilter : (((List.range 128).filter fun i => decide (2 ^ (i + 1) ≤ L)).length)
      = Nat.log 2 L := by
    have hcong : ((List.range 128).filter fun i => decide (2 ^ (i + 1) ≤ L))
        = ((List.range 128).filter fun i => decide (i < Nat.log 2 L)) := by
      apply List.filter_congr
      intro i _
      have : 2 ^ (i + 1) ≤ L ↔ i + 1 ≤ Nat.log 2 L :=
        Nat.pow_le_iff_le_log (by norm_num) hL0
      simp only [decide_eq_decide]
      omega
    rw [hcong, range_filter_length]
    omega
  unfold get_n_bits
  simp only [hfilter]
  split
  · right; rfl
  · left; rfl

theorem get_n_bits_facts (L : ℕ) (hL : 2 ≤ L) (h64 : L ≤ 2 ^ 64) :
    1 ≤ get_n_bits L ∧ get_n_bits L ≤ 65 ∧ L < 2 ^ (get_n_bits L + 1) := by
  have hlog1 : 1 ≤ Nat.log 2 L := by
    have : 2 ^ 1 ≤ L := by omega
    exact (Nat.pow_le_iff_le_log (by norm_num) (by omega)).mp this
  have hlog64 : Nat.log 2 L ≤ 64 := by
    calc Nat.log 2 L ≤ Nat.log 2 (2 ^ 64) := Nat.log_mono_right h64
      _ = 64 := Nat.log_pow (by norm_num : 1 < 2) 64
  have hupper : L < 2 ^ (Nat.log 2 L + 1) := Nat.lt_pow_succ_log_self (by norm_num) L
  rcases get_n_bits_log L hL h64 with h | h <;> rw [h] <;>
    refine ⟨by omega, by omega, ?_⟩
  · exact hupper
  · calc L < 2 ^ (Nat.log 2 L + 1) := hupper
      _ ≤ 2 ^ (Nat.log 2 L + 1 + 1) := Nat.pow_le_pow_right (by norm_num) (by omega)

/-! ### Facts about `decompose` -/

theorem decompose_length (t : ℤ) (field : ℕ) :
    (decompose t field).length = get_n_bits field := by
  simp [decompose]

theorem decompose_getD (t : ℤ) (field : ℕ) (i : ℕ) (hi : i < get_n_bits field) :
    (decompose t field).getD i 0 = Int.tmod (Int.tdiv t (2 ^ i)) 2 := by
  unfold decompose
  rw [List.getD_eq_getElem?_getD]
  rw [List.getElem?_map]
  rw [List.getElem?_range hi]
  rfl

theorem decompose_getD_nat (t : ℕ) (field : ℕ) (i : ℕ) (hi : i < get_n_bits field) :
    (decompose (t : ℤ) field).getD i 0 = (nbit t i : ℤ) := by
  rw [decompose_getD _ _ _ hi]
  rw [Int.tdiv_eq_ediv (by positivity) (by positivity)]
  rw [Int.tmod_eq_emod (by positivity) (by norm_num)]
  unfold nbit
  push_cast
  rfl

/-! ### C9: claims about `decompose` -/

/-- C9 (corrected), counterexample: for the negative entry `t = -1` (which
arises under balanced share encoding) the first bit produced by `decompose`
is `-1`, not `floor(t / 2 ^ 0) mod 2 = 1`, and it is not a value in
`{0, 1}`: torch integer division and `fmod` truncate toward zero. -/
theorem decompose_negative_cex :
    (decompose (-1) 67).getD 0 0 = -1 ∧
    Int.fdiv (-1) (2 ^ 0) % 2 = 1 ∧
    ((-1 : ℤ) ≠ 1) ∧
    ¬((decompose (-1) 67).getD 0 0 = 0 ∨ (decompose (-1) 67).getD 0 0 = 1) := by
  decide

/-- C9 (corrected), amended: for every nonnegative integer tensor entry `t`
and every field `L`, `decompose(t, L)` has one extra trailing axis of length
`get_n_bits L` ordered least-significant-bit first, and its entry at bit
index `i` equals `floor(t / 2 ^ i) mod 2`, a value in `{0, 1}`.  (For
negative entries the truncating torch semantics produce values in
`{-1, 0}`.) -/
theorem decompose_nonneg_bits (t : ℤ) (field : ℕ) (ht : 0 ≤ t) :
    (decompose t field).length = get_n_bits field ∧
    ∀ i, i < get_n_bits field →
      (decompose t field).getD i 0 = Int.fdiv t (2 ^ i) % 2 ∧
      (Int.fdiv t (2 ^ i) % 2 = 0 ∨ Int.fdiv t (2 ^ i) % 2 = 1) := by
  refine ⟨decompose_length t field, fun i hi => ?_⟩
  rw [decompose_getD _ _ _ hi]
  rw [Int.fdiv_eq_ediv _ (by positivity)]
  rw [Int.tdiv_eq_ediv ht (by positivity)]
  rw [Int.tmod_eq_emod (by positivity) (by norm_num)]
  omega

/-- Witness for `decompose_nonneg_bits` at `t = 11`, `field = 67`. -/
theorem decompose_nonneg_bits_witness :
    (0 : ℤ) ≤ 11 ∧
    ((decompose (11 : ℤ) 67).length = get_n_bits 67 ∧
      ∀ i, i < get_n_bits 67 →
        (decompose (11 : ℤ) 67).getD i 0 = Int.fdiv 11 (2 ^ i) % 2 ∧
        (Int.fdiv (11 : ℤ) (2 ^ i) % 2 = 0 ∨ Int.fdiv (11 : ℤ) (2 ^ i) % 2 = 1)) :=
  ⟨by decide, decompose_nonneg_bits 11 67 (by decide)⟩

/-! ### C8: the default trial bit count of `division` -/

/-- C8 (corrected), counterexample: for the field `L = 2 ^ 33` the default
trial bit count is `Q_BITS(L) // 2 = 32`, the storage half-width, while half
the field's bit width (half of the rounded base-two logarithm of `L`, which
is 33) is 16. -/
theorem division_default_bits_cex :
    division_bit_len none (2 ^ 33) = 32 ∧
    get_n_bits (2 ^ 33) = 33 ∧
    (32 : ℕ) ≠ 33 / 2 := by
  refine ⟨by decide, by decide, by decide⟩

/-- C8 (corrected), amended: when `division` is called without an explicit
`bit_len_max`, the trial bit count defaults to half the storage bit width
`Q_BITS(L)` (64 for `L > 2 ^ 32`, else 32), i.e. to 32 or 16 by field
class - not to half the rounded base-two logarithm of `L`. -/
theorem division_default_bit_len (L : ℕ) :
    division_bit_len none L = Q_BITS L / 2 ∧
    (2 ^ 32 < L → division_bit_len none L = 32) ∧
    (L ≤ 2 ^ 32 → division_bit_len none L = 16) := by
  refine ⟨rfl, fun h => ?_, fun h => ?_⟩ <;>
    unfold division_bit_len Q_BITS <;> simp only [Option.getD_none]
  · rw [if_pos h]
  · rw [if_neg (by omega)]

/-- Witness for `division_default_bit_len` at `L = 2 ^ 64` and `L = 67`. -/
theorem division_default_bit_len_witness :
    (2 ^ 32 < 2 ^ 64 ∧ division_bit_len none (2 ^ 64) = 32) ∧
    (67 ≤ 2 ^ 32 ∧ division_bit_len none 67 = 16) :=
  ⟨⟨by norm_num, (division_default_bit_len (2 ^ 64)).2.1 (by norm_num)⟩,
   ⟨by norm_num, (division_default_bit_len 67).2.2 (by norm_num)⟩⟩

/-! ### C7: the `select_share` precondition -/

/-- C7 (corrected), counterexample: two standard (`long`) dtype sharings with
different fields (`2 ^ 40` and `2 ^ 50`) pass `select_share`'s assert and the
call succeeds, so disagreeing fields do not cause an invalid-dtype failure:
the assert compares only the three dtype classes. -/
theorem select_share_field_mismatch_cex :
    select_share ⟨2 ^ 40, Dtype.long⟩ ⟨2 ^ 50, Dtype.long⟩ ⟨2 ^ 40, Dtype.long⟩ 0 5 9
      = Except.ok 5 ∧
    (⟨2 ^ 40, Dtype.long⟩ : ASTMeta).field ≠ (⟨2 ^ 50, Dtype.long⟩ : ASTMeta).field := by
  constructor
  · unfold select_share
    rw [if_pos ⟨rfl, rfl, by decide⟩]
    norm_num
  · decide

/-- C7 (corrected), amended: `select_share` fails with the invalid-dtype
error exactly when the three inputs' dtype classes are not all equal or the
common class is the bridging (`custom`) class; in particular any `custom`
input fails.  The check is the first step of the function: on failure no
value is computed (and no remote operation is issued).  Disagreeing fields
alone are not checked. -/
theorem select_share_dtype_check (a x y : ASTMeta) (av xv yv : ℤ) :
    (select_share a x y av xv yv
        = Except.error "custom dtype shares are unsupported in SecureNN" ↔
      ¬(a.dtype = x.dtype ∧ x.dtype = y.dtype ∧ y.dtype ≠ Dtype.custom)) ∧
    ((a.dtype = Dtype.custom ∨ x.dtype = Dtype.custom ∨ y.dtype = Dtype.custom) →
      select_share a x y av xv yv
        = Except.error "custom dtype shares are unsupported in SecureNN") := by
  constructor
  · unfold select_share
    split
    case isTrue h => simp [h]
    case isFalse h => simp [h]
  · intro hcust
    unfold select_share
    rw [if_neg]
    rintro ⟨h1, h2, h3⟩
    rcases hcust with h | h | h
    · exact h3 (by rw [← h2, ← h1, h])
    · exact h3 (by rw [← h2, h])
    · exact h3 h

/-- Witness for `select_share_dtype_check`: all-`custom` inputs fail. -/
theorem select_share_dtype_check_witness :
    ((⟨8, Dtype.custom⟩ : ASTMeta).dtype = Dtype.custom ∨
      (⟨8, Dtype.custom⟩ : ASTMeta).dtype = Dtype.custom ∨
      (⟨8, Dtype.custom⟩ : ASTMeta).dtype = Dtype.custom) ∧
    select_share ⟨8, Dtype.custom⟩ ⟨8, Dtype.custom⟩ ⟨8, Dtype.custom⟩ 0 1 2
      = Except.error "custom dtype shares are unsupported in SecureNN" :=
  ⟨Or.inl rfl,
   (select_share_dtype_check ⟨8, Dtype.custom⟩ ⟨8, Dtype.custom⟩ ⟨8, Dtype.custom⟩ 0 1 2).2
     (Or.inl rfl)⟩

/-! ### C6: `share_convert` -/

/-- C6 (corrected), counterexample: in field `L = 8`, the shares `(3, 3)`
reveal the secret `-2` (their sum `6` decodes to `-2` in balanced form), and
they are a legitimate sharing (both shares lie in the balanced range).  After
`share_convert` with the zero-sharing `(0, 0)` of field `7`, the output shares
`(3, 3)` reveal `-1` in field `7`: the secret is not preserved, because the
share sum `6` wraps (it differs from the balanced representative `-2` by
`8`), and the omitted overflow correction would have to account for it. -/
theorem share_convert_wrap_cex :
    ((0 : ℤ) + 0) % 7 = 0 ∧
    share_convert 8 3 3 0 0 = (3, 3) ∧
    toSigned 8 (3 + 3) = -2 ∧
    toSigned 7 ((share_convert 8 3 3 0 0).1 + (share_convert 8 3 3 0 0).2) = -1 ∧
    ((-1 : ℤ) ≠ -2) := by
  decide

/-- C6 (corrected), amended: `share_convert`'s computation consists solely of
adding a fresh zero-sharing generated in field `L - 1` to the input shares
(the overflow-correction steps of the source paper are omitted), and it
returns a sharing of the same secret modulo `L - 1` exactly when the two
input shares' integer sum equals the balanced representative of the secret
(no wrap), i.e. lies in the balanced range of field `L - 1`; a wrapped share
sum shifts the revealed secret. -/
theorem share_convert_no_wrap (L : ℕ) (s0 s1 z0 z1 : ℤ) (hL : 3 ≤ L)
    (hz : (z0 + z1) % ((L : ℤ) - 1) = 0)
    (hrange : -((L : ℤ) - 1) ≤ 2 * (s0 + s1) ∧ 2 * (s0 + s1) ≤ (L : ℤ) - 2) :
    share_convert L s0 s1 z0 z1 = ((s0 + z0) % ((L : ℤ) - 1), (s1 + z1) % ((L : ℤ) - 1)) ∧
    toSigned (L - 1) ((share_convert L s0 s1 z0 z1).1 + (share_convert L s0 s1 z0 z1).2)
      = toSigned L (s0 + s1) := by
  have hL1 : ((L - 1 : ℕ) : ℤ) = (L : ℤ) - 1 := by omega
  refine ⟨rfl, ?_⟩
  have hsum : ((share_convert L s0 s1 z0 z1).1 + (share_convert L s0 s1 z0 z1).2)
      % ((L - 1 : ℕ) : ℤ) = (s0 + s1) % ((L - 1 : ℕ) : ℤ) := by
    unfold share_convert
    rw [hL1]
    conv_lhs => rw [Int.add_emod, Int.emod_emod_of_dvd _ dvd_rfl,
      Int.emod_emod_of_dvd _ dvd_rfl, ← Int.add_emod]
    conv_rhs => rw [show s0 + s1 = (s0 + z0) + (s1 + z1) - (z0 + z1) by ring]
    rw [Int.sub_emod, hz]
    simp
  rw [toSigned_congr _ _ _ hsum]
  rw [toSigned_eq_self (L - 1) _ (by omega) (by omega) (by omega)]
  rw [toSigned_eq_self L _ (by omega) (by omega) (by omega)]

/-- Witness for `share_convert_no_wrap`: `L = 8`, shares `(1, -3)` of the
secret `-2`, zero-sharing `(2, 5)`. -/
theorem share_convert_no_wrap_witness :
    (((2 : ℤ) + 5) % 7 = 0 ∧ -((8 : ℤ) - 1) ≤ 2 * (1 + -3) ∧ 2 * ((1 : ℤ) + -3) ≤ 8 - 2) ∧
    share_convert 8 1 (-3) 2 5 = ((1 + 2) % 7, (-3 + 5) % 7) ∧
    toSigned 7 ((share_convert 8 1 (-3) 2 5).1 + (share_convert 8 1 (-3) 2 5).2)
      = toSigned 8 (1 + -3) :=
  ⟨⟨by decide, by decide, by decide⟩,
   share_convert_no_wrap 8 1 (-3) 2 5 (by decide) (by decide) ⟨by decide, by decide⟩⟩

/-! ### Bit-vector machinery for the `private_compare` correctness proof -/

theorem nbit_lt_two (x i : ℕ) : nbit x i < 2 := Nat.mod_lt _ (by norm_num)

theorem nbit_eq_ite (x i : ℕ) : nbit x i = if x.testBit i = true then 1 else 0 := by
  have h := @Nat.testBit_to_div_mod i x
  have h2 := nbit_lt_two x i
  have h3 : nbit x i = 0 ∨ nbit x i = 1 := by omega
  unfold nbit at *
  rcases h3 with h0 | h1
  · rw [h0] at h ⊢
    simp at h
    simp [h]
  · rw [h1] at h ⊢
    simp at h
    simp [h]

theorem nbit_congr_of_testBit (x y i : ℕ) (h : x.testBit i = y.testBit i) :
    nbit x i = nbit y i := by
  rw [nbit_eq_ite, nbit_eq_ite, h]

theorem nbit_high (l x i : ℕ) (hx : x < 2 ^ l) (hi : l ≤ i) : nbit x i = 0 := by
  unfold nbit
  have hlt : x < 2 ^ i := lt_of_lt_of_le hx (Nat.pow_le_pow_right (by norm_num) hi)
  rw [Nat.div_eq_of_lt hlt]

theorem testBit_high (l x i : ℕ) (hx : x < 2 ^ l) (hi : l ≤ i) : x.testBit i = false := by
  have h := nbit_eq_ite x i
  rw [nbit_high l x i hx hi] at h
  by_contra hc
  rw [eq_comm, if_pos (by simpa using hc)] at h
  exact one_ne_zero h

theorem nbit_mod_pow (l t i : ℕ) (hi : i < l) : nbit (t % 2 ^ l) i = nbit t i := by
  apply nbit_congr_of_testBit
  rw [Nat.testBit_mod_two_pow]
  simp [hi]

/-- The most significant differing bit of `x > r`: existence, with all more
significant bits equal. -/
theorem exists_top_diff (l x r : ℕ) (hx : x < 2 ^ l) (hr : r < 2 ^ l) (hlt : r < x) :
    ∃ i, i < l ∧ nbit x i = 1 ∧ nbit r i = 0 ∧
      ∀ k, i < k → nbit x k = nbit r k := by
  have hne : x ^^^ r ≠ 0 := by
    intro h
    exact absurd (Nat.xor_eq_zero.mp h) (by omega)
  obtain ⟨i, hbit, htop⟩ := Nat.exists_most_significant_bit hne
  rw [Nat.testBit_xor] at hbit
  have hdiff : x.testBit i ≠ r.testBit i := by
    intro h
    rw [h] at hbit
    simp at hbit
  have hil : i < l := by
    by_contra hc
    push_neg at hc
    rw [testBit_high l x i hx hc, testBit_high l r i hr hc] at hdiff
    exact hdiff rfl
  have hagree : ∀ k, i < k → nbit x k = nbit r k := by
    intro k hk
    have := htop k hk
    rw [Nat.testBit_xor] at this
    apply nbit_congr_of_testBit
    rcases hx2 : x.testBit k <;> rcases hr2 : r.testBit k <;>
      rw [hx2, hr2] at this <;> simp_all
  rcases hxb : x.testBit i <;> rcases hrb : r.testBit i
  · rw [hxb, hrb] at hdiff; exact absurd rfl hdiff
  · -- x bit false, r bit true: contradicts r < x
    exfalso
    have hxr : x < r := by
      refine Nat.lt_of_testBit i hxb hrb ?_
      intro j hj
      have h2 := hagree j hj
      rw [nbit_eq_ite, nbit_eq_ite] at h2
      rcases h3 : x.testBit j <;> rcases h4 : r.testBit j <;>
        rw [h3, h4] at h2 <;> simp_all
    omega
  · refine ⟨i, hil, ?_, ?_, hagree⟩
    · rw [nbit_eq_ite, hxb]; rfl
    · rw [nbit_eq_ite, hrb]; rfl
  · rw [hxb, hrb] at hdiff; exact absurd rfl hdiff

/-- Conversely, a position with `x`-bit 1, `r`-bit 0 and all more significant
bits (below `l`) equal forces `r < x`. -/
theorem lt_of_top_diff (l x r i : ℕ) (hx : x < 2 ^ l) (hr : r < 2 ^ l)
    (h1 : nbit x i = 1) (h0 : nbit r i = 0)
    (hagree : ∀ k, i < k → k < l → nbit x k = nbit r k) : r < x := by
  refine Nat.lt_of_testBit i ?_ ?_ ?_
  · rw [nbit_eq_ite] at h0
    rcases h : r.testBit i
    · rfl
    · rw [h] at h0; simp at h0
  · rw [nbit_eq_ite] at h1
    rcases h : x.testBit i
    · rw [h] at h1; simp at h1
    · rfl
  · intro j hj
    rcases Nat.lt_or_ge j l with hjl | hjl
    · have h2 := hagree j hj hjl
      rw [nbit_eq_ite, nbit_eq_ite] at h2
      rcases h3 : x.testBit j <;> rcases h4 : r.testBit j <;>
        rw [h3, h4] at h2 <;> simp_all
    · rw [testBit_high l x j hx hjl, testBit_high l r j hr hjl]

theorem xor01_nbit (x r k : ℕ) :
    xor01 ((nbit x k : ℤ)) ((nbit r k : ℤ)) = if nbit x k = nbit r k then 0 else 1 := by
  have hx := nbit_lt_two x k
  have hr := nbit_lt_two r k
  have hx2 : nbit x k = 0 ∨ nbit x k = 1 := by omega
  have hr2 : nbit r k = 0 ∨ nbit r k = 1 := by omega
  unfold xor01
  rcases hx2 with h1 | h1 <;> rcases hr2 with h2 | h2 <;>
    rw [h1, h2] <;> norm_num

theorem suffixSum_xor_nonneg (l x r i : ℕ) :
    0 ≤ suffixSum l (fun k => xor01 ((nbit x k : ℤ)) ((nbit r k : ℤ))) i := by
  unfold suffixSum
  apply Finset.sum_nonneg
  intro k _
  rw [xor01_nbit]
  split <;> norm_num

theorem suffixSum_xor_le (l x r i : ℕ) (hi : i < l) :
    suffixSum l (fun k => xor01 ((nbit x k : ℤ)) ((nbit r k : ℤ))) i ≤ (l : ℤ) - 1 - i := by
  unfold suffixSum
  calc ∑ k ∈ Finset.Ico (i + 1) l, xor01 ((nbit x k : ℤ)) ((nbit r k : ℤ))
      ≤ ∑ _k ∈ Finset.Ico (i + 1) l, (1 : ℤ) := by
        apply Finset.sum_le_sum
        intro k _
        rw [xor01_nbit]
        split <;> norm_num
    _ = ((Finset.Ico (i + 1) l).card : ℤ) := by simp
    _ ≤ (l : ℤ) - 1 - i := by
        rw [Nat.card_Ico]
        omega

theorem suffixSum_xor_eq_zero_iff (l x r i : ℕ) :
    suffixSum l (fun k => xor01 ((nbit x k : ℤ)) ((nbit r k : ℤ))) i = 0 ↔
      ∀ k, i < k → k < l → nbit x k = nbit r k := by
  unfold suffixSum
  rw [Finset.sum_eq_zero_iff_of_nonneg]
  · constructor
    · intro h k hk1 hk2
      have := h k (by rw [Finset.mem_Ico]; omega)
      rw [xor01_nbit] at this
      by_contra hc
      rw [if_neg hc] at this
      exact one_ne_zero this
    · intro h k hk
      rw [Finset.mem_Ico] at hk
      rw [xor01_nbit, if_pos (h k (by omega) (by omega))]
  · intro k _
    rw [xor01_nbit]
    split <;> norm_num

theorem cvec_nonneg (l x r i : ℕ) :
    0 ≤ cvec l (fun k => (nbit x k : ℤ)) (fun k => (nbit r k : ℤ)) i := by
  simp only [cvec]
  have h1 := suffixSum_xor_nonneg l x r i
  have h2 := nbit_lt_two x i
  have h3 := nbit_lt_two r i
  omega

theorem cvec_le (l x r i : ℕ) (hi : i < l) :
    cvec l (fun k => (nbit x k : ℤ)) (fun k => (nbit r k : ℤ)) i ≤ (l : ℤ) + 1 := by
  simp only [cvec]
  have h1 := suffixSum_xor_le l x r i hi
  have h3 := nbit_lt_two r i
  have h2 := nbit_lt_two x i
  omega

theorem cvec_eq_zero_iff (l x r i : ℕ) :
    cvec l (fun k => (nbit x k : ℤ)) (fun k => (nbit r k : ℤ)) i = 0 ↔
      (nbit x i = 1 ∧ nbit r i = 0 ∧ ∀ k, i < k → k < l → nbit x k = nbit r k) := by
  simp only [cvec]
  rw [← suffixSum_xor_eq_zero_iff l x r i]
  have h1 := suffixSum_xor_nonneg l x r i
  have h2 := nbit_lt_two x i
  have h3 := nbit_lt_two r i
  constructor
  · intro h
    have hhead : -((nbit x i : ℤ)) + (nbit r i : ℤ) + 1 = 0 ∧
        suffixSum l (fun k => xor01 ((nbit x k : ℤ)) ((nbit r k : ℤ))) i = 0 := by
      constructor <;> omega
    obtain ⟨hh, hs⟩ := hhead
    refine ⟨?_, ?_, hs⟩ <;> omega
  · rintro ⟨h1x, h0r, hs⟩
    rw [hs, h1x, h0r]
    norm_num

/-- The central counting fact: the number of zeros of the comparison vector
`cvec l (bits of x) (bits of r)` over positions `0, ..., l - 1` is 1 when
`r < x` and 0 otherwise. -/
theorem cvec_count (l x r : ℕ) (hx : x < 2 ^ l) (hr : r < 2 ^ l) :
    zeroCount l (cvec l (fun k => (nbit x k : ℤ)) (fun k => (nbit r k : ℤ)))
      = if r < x then 1 else 0 := by
  unfold zeroCount
  split
  case isTrue hlt =>
    obtain ⟨i0, hi0l, hxb, hrb, hagree⟩ := exists_top_diff l x r hx hr hlt
    have : ((Finset.range l).filter fun i =>
        cvec l (fun k => (nbit x k : ℤ)) (fun k => (nbit r k : ℤ)) i = 0) = {i0} := by
      ext j
      simp only [Finset.mem_filter, Finset.mem_range, Finset.mem_singleton]
      constructor
      · rintro ⟨hjl, hj0⟩
        rw [cvec_eq_zero_iff] at hj0
        obtain ⟨hj1, hj2, hj3⟩ := hj0
        rcases Nat.lt_trichotomy j i0 with h | h | h
        · -- j below i0: bits at i0 differ but hj3 forces equality
          exact absurd (hj3 i0 h hi0l) (by omega)
        · exact h
        · exact absurd (hagree j h) (by omega)
      · intro h
        subst h
        refine ⟨hi0l, ?_⟩
        rw [cvec_eq_zero_iff]
        exact ⟨hxb, hrb, fun k hk _ => hagree k hk⟩
    rw [this]
    rfl
  case isFalse hge =>
    have : ((Finset.range l).filter fun i =>
        cvec l (fun k => (nbit x k : ℤ)) (fun k => (nbit r k : ℤ)) i = 0) = ∅ := by
      ext j
      simp only [Finset.mem_filter, Finset.mem_range, Finset.not_mem_empty, iff_false]
      rintro ⟨hjl, hj0⟩
      rw [cvec_eq_zero_iff] at hj0
      obtain ⟨hj1, hj2, hj3⟩ := hj0
      exact hge (lt_of_top_diff l x r j hx hr hj1 hj2 hj3)
    rw [this]
    rfl

/-! ### Evaluating `private_compare` -/

/-- The reversal-cumsum-reversal trick computes, at each position, the sum of
the strictly more significant positions. -/
theorem flip_cumsum_flip (l : ℕ) (f : ℕ → ℤ) (i : ℕ) (hi : i < l) :
    flip l (cumsum l (flip l f)) i - f i = suffixSum l f i := by
  unfold flip cumsum suffixSum
  simp only
  have h2 : min (l - 1 - i + 1) l = l - i := by omega
  rw [h2]
  have h3 : ∑ k ∈ Finset.range (l - i), f (l - 1 - k)
      = ∑ k ∈ Finset.range (l - i), f (l - i - 1 - k + i) := by
    apply Finset.sum_congr rfl
    intro k hk
    rw [Finset.mem_range] at hk
    congr 1
    omega
  rw [h3, show (∑ k ∈ Finset.range (l - i), f (l - i - 1 - k + i))
      = ∑ k ∈ Finset.range (l - i), f (k + i) from
    Finset.sum_range_reflect (fun j => f (j + i)) (l - i)]
  have h4 : ∑ j ∈ Finset.Ico i l, f j = ∑ k ∈ Finset.range (l - i), f (i + k) :=
    Finset.sum_Ico_eq_sum_range f i l
  have h5 : ∑ k ∈ Finset.range (l - i), f (k + i)
      = ∑ k ∈ Finset.range (l - i), f (i + k) := by
    apply Finset.sum_congr rfl
    intro k _
    rw [Nat.add_comm]
  rw [h5, ← h4, Finset.sum_eq_sum_Ico_succ_bot hi]
  ring

/-- Blinding by a scalar in `[1, p - 1]` preserves zero residues modulo the
prime `p`. -/
theorem blind_zero_iff (s c : ℤ) (hs1 : 1 ≤ s) (hs2 : s < (p : ℤ)) :
    (s * c) % (p : ℤ) = 0 ↔ c % (p : ℤ) = 0 := by
  have hp : Prime ((p : ℕ) : ℤ) := by
    rw [Int.prime_iff_natAbs_prime]
    norm_num [p]
  constructor
  · intro h
    have hdvd : ((p : ℕ) : ℤ) ∣ s * c := Int.dvd_of_emod_eq_zero h
    rcases hp.dvd_mul.mp hdvd with h1 | h1
    · exfalso
      have := Int.le_of_dvd (by omega) h1
      have hpv : ((p : ℕ) : ℤ) = 67 := by norm_num [p]
      omega
    · exact Int.emod_eq_zero_of_dvd h1
  · intro h
    have hdvd : ((p : ℕ) : ℤ) ∣ c := Int.dvd_of_emod_eq_zero h
    exact Int.emod_eq_zero_of_dvd (hdvd.mul_left s)

theorem zeroCount_congr (l : ℕ) (f g : ℕ → ℤ) (h : ∀ i, i < l → f i = g i) :
    zeroCount l f = zeroCount l g := by
  unfold zeroCount
  congr 1
  apply Finset.filter_congr
  intro i hi
  rw [Finset.mem_range] at hi
  rw [h i hi]

/-- Opening the blinded, permuted vector and counting zeros observes exactly
the number of zero positions of the unblinded vector `pc_c`, provided the
blinding scalars and the permutation come from their samplers and the vector
entries are (nonnegative) canonical residues. -/
theorem pc_count (x_bit : List ℤ) (r beta : ℤ) (L : ℕ) (ρ : PCRand)
    (hρ : ρ.Valid x_bit.length)
    (hlow : ∀ i, i < x_bit.length → 0 ≤ pc_c x_bit r beta L ρ.u i)
    (hhigh : ∀ i, i < x_bit.length → pc_c x_bit r beta L ρ.u i < (p : ℤ)) :
    private_compare x_bit r beta L ρ
      = (zeroCount x_bit.length (pc_c x_bit r beta L ρ.u) : ℤ) := by
  obtain ⟨hs, hu, hpm, hpi⟩ := hρ
  have hiff : ∀ i, i < x_bit.length →
      ((ρ.s (ρ.perm i) * pc_c x_bit r beta L ρ.u (ρ.perm i)) % (p : ℤ) = 0 ↔
        pc_c x_bit r beta L ρ.u (ρ.perm i) = 0) := by
    intro i hi
    have hpmi := hpm i hi
    rw [blind_zero_iff _ _ (hs _ hpmi).1 (hs _ hpmi).2]
    rw [Int.emod_eq_of_lt (hlow _ hpmi) (hhigh _ hpmi)]
  simp only [private_compare, zeroCount]
  norm_cast
  apply Finset.card_bij (fun a _ => ρ.perm a)
  · intro a ha
    rw [Finset.mem_filter, Finset.mem_range] at ha
    rw [Finset.mem_filter, Finset.mem_range]
    exact ⟨hpm a ha.1, (hiff a ha.1).mp ha.2⟩
  · intro a ha b hb hab
    rw [Finset.mem_filter, Finset.mem_range] at ha hb
    exact hpi a ha.1 b hb.1 hab
  · intro b hb
    rw [Finset.mem_filter, Finset.mem_range] at hb
    have hsurj := Finset.surj_on_of_inj_on_of_card_le
      (s := Finset.range x_bit.length) (t := Finset.range x_bit.length)
      (f := fun a _ => ρ.perm a)
      (fun a ha => by
        rw [Finset.mem_range] at ha
        rw [Finset.mem_range]
        exact hpm a ha)
      (fun a₁ a₂ ha₁ ha₂ h => by
        rw [Finset.mem_range] at ha₁ ha₂
        exact hpi a₁ ha₁ a₂ ha₂ h)
      le_rfl
    obtain ⟨a, ha, hab⟩ := hsurj b (by rw [Finset.mem_range]; exact hb.1)
    rw [Finset.mem_range] at ha
    have hab2 : b = ρ.perm a := hab
    refine ⟨a, ?_, hab.symm⟩
    rw [Finset.mem_filter, Finset.mem_range]
    refine ⟨ha, (hiff a ha).mpr ?_⟩
    rw [← hab2]
    exact hb.2

/-! ### The three branches of `pc_c` -/

theorem pc_c_beta0 (x_bit : List ℤ) (r : ℤ) (L : ℕ) (u : ℕ → ℤ) (i : ℕ) :
    pc_c x_bit r 0 L u i
      = pc_cbeta0 x_bit.length (fun k => x_bit.getD k 0) (bitf r L) i := by
  simp only [pc_c]
  ring

theorem pc_c_beta1 (x_bit : List ℤ) (r : ℤ) (L : ℕ) (u : ℕ → ℤ) (i : ℕ)
    (hne : r ≠ (get_r_mask L : ℤ)) :
    pc_c x_bit r 1 L u i
      = pc_cbeta1 x_bit.length (fun k => x_bit.getD k 0) (bitf (r + 1) L) i := by
  simp only [pc_c, if_neg hne]
  ring

theorem pc_c_else (x_bit : List ℤ) (r : ℤ) (L : ℕ) (u : ℕ → ℤ) (i : ℕ)
    (heq : r = (get_r_mask L : ℤ)) :
    pc_c x_bit r 1 L u i = pc_celse u i := by
  simp only [pc_c, if_pos heq]
  ring

theorem pc_celse_eq (u : ℕ → ℤ) (i : ℕ) :
    pc_celse u i = if i = 0 then 0 else 1 := by
  simp only [pc_celse]
  by_cases h : i = 0
  · rw [if_pos h, if_pos h]
    ring
  · rw [if_neg h, if_neg h]
    ring

theorem pc_cbeta0_eq_cvec (L x r : ℕ) (i : ℕ) (hi : i < get_n_bits L) :
    pc_cbeta0 (get_n_bits L) (fun k => (decompose (x : ℤ) L).getD k 0) (bitf (r : ℤ) L) i
      = cvec (get_n_bits L) (fun k => (nbit x k : ℤ)) (fun k => (nbit r k : ℤ)) i := by
  have hx : ∀ k, k < get_n_bits L →
      (decompose (x : ℤ) L).getD k 0 = (nbit x k : ℤ) := fun k hk =>
    decompose_getD_nat x L k hk
  have hr : ∀ k, k < get_n_bits L → bitf (r : ℤ) L k = (nbit r k : ℤ) := by
    intro k hk
    unfold bitf
    exact decompose_getD_nat r L k hk
  unfold pc_cbeta0 pc_wc cvec
  rw [flip_cumsum_flip _ _ _ hi]
  have hsum : suffixSum (get_n_bits L)
        (pc_w (fun k => (decompose (x : ℤ) L).getD k 0) (bitf (r : ℤ) L)) i
      = suffixSum (get_n_bits L)
        (fun k => xor01 ((fun j => (nbit x j : ℤ)) k) ((fun j => (nbit r j : ℤ)) k)) i := by
    unfold suffixSum
    apply Finset.sum_congr rfl
    intro k hk
    rw [Finset.mem_Ico] at hk
    unfold pc_w xor01
    beta_reduce
    rw [hx k hk.2, hr k hk.2]
  rw [hsum]
  beta_reduce
  rw [hx i hi, hr i hi]

theorem pc_cbeta1_eq_cvec (L x r : ℕ) (i : ℕ) (hi : i < get_n_bits L) :
    pc_cbeta1 (get_n_bits L) (fun k => (decompose (x : ℤ) L).getD k 0)
        (bitf ((r : ℤ) + 1) L) i
      = cvec (get_n_bits L) (fun k => (nbit (r + 1) k : ℤ)) (fun k => (nbit x k : ℤ)) i := by
  have hx : ∀ k, k < get_n_bits L →
      (decompose (x : ℤ) L).getD k 0 = (nbit x k : ℤ) := fun k hk =>
    decompose_getD_nat x L k hk
  have hcast : ((r : ℤ) + 1) = ((r + 1 : ℕ) : ℤ) := by push_cast; ring
  have ht : ∀ k, k < get_n_bits L → bitf ((r : ℤ) + 1) L k = (nbit (r + 1) k : ℤ) := by
    intro k hk
    unfold bitf
    rw [hcast]
    exact decompose_getD_nat (r + 1) L k hk
  unfold pc_cbeta1 pc_wc cvec
  rw [flip_cumsum_flip _ _ _ hi]
  have hsum : suffixSum (get_n_bits L)
        (pc_w (fun k => (decompose (x : ℤ) L).getD k 0) (bitf ((r : ℤ) + 1) L)) i
      = suffixSum (get_n_bits L)
        (fun k => xor01 ((fun j => (nbit (r + 1) j : ℤ)) k) ((fun j => (nbit x j : ℤ)) k)) i := by
    unfold suffixSum
    apply Finset.sum_congr rfl
    intro k hk
    rw [Finset.mem_Ico] at hk
    unfold pc_w xor01
    beta_reduce
    rw [hx k hk.2, ht k hk.2]
    ring
  rw [hsum]
  beta_reduce
  rw [hx i hi, ht i hi]
  ring

theorem cvec_congr (l : ℕ) (bx bx2 br br2 : ℕ → ℤ)
    (hbx : ∀ k, k < l → bx k = bx2 k) (hbr : ∀ k, k < l → br k = br2 k) :
    ∀ i, i < l → cvec l bx br i = cvec l bx2 br2 i := by
  intro i hi
  unfold cvec suffixSum
  rw [hbx i hi, hbr i hi]
  congr 1
  apply Finset.sum_congr rfl
  intro k hk
  rw [Finset.mem_Ico] at hk
  unfold xor01
  beta_reduce
  rw [hbx k hk.2, hbr k hk.2]

/-! ### Closed forms of `private_compare` on each public branch -/

theorem pc_eval_beta0 (L x r : ℕ) (ρ : PCRand) (hL : 2 ≤ L) (h64 : L ≤ 2 ^ 64)
    (hx : x < 2 ^ get_n_bits L) (hr : r < 2 ^ get_n_bits L)
    (hρ : ρ.Valid (get_n_bits L)) :
    private_compare (decompose (x : ℤ) L) (r : ℤ) 0 L ρ = if r < x then 1 else 0 := by
  obtain ⟨hl1, hl65, hlt⟩ := get_n_bits_facts L hL h64
  have hlen := decompose_length (x : ℤ) L
  have hceq : ∀ i, i < get_n_bits L →
      pc_c (decompose (x : ℤ) L) (r : ℤ) 0 L ρ.u i
        = cvec (get_n_bits L) (fun k => (nbit x k : ℤ)) (fun k => (nbit r k : ℤ)) i := by
    intro i hi
    rw [pc_c_beta0, hlen]
    exact pc_cbeta0_eq_cvec L x r i hi
  have h0 : ∀ i, i < (decompose (x : ℤ) L).length →
      0 ≤ pc_c (decompose (x : ℤ) L) (r : ℤ) 0 L ρ.u i := by
    intro i hi
    rw [hlen] at hi
    rw [hceq i hi]
    exact cvec_nonneg _ _ _ _
  have h1 : ∀ i, i < (decompose (x : ℤ) L).length →
      pc_c (decompose (x : ℤ) L) (r : ℤ) 0 L ρ.u i < (p : ℤ) := by
    intro i hi
    rw [hlen] at hi
    rw [hceq i hi]
    have hle := cvec_le (get_n_bits L) x r i hi
    have hp : ((p : ℕ) : ℤ) = 67 := by norm_num [p]
    omega
  rw [pc_count _ _ _ _ _ (by rw [hlen]; exact hρ) h0 h1]
  rw [hlen, zeroCount_congr _ _ _ hceq, cvec_count _ _ _ hx hr]
  split <;> norm_num

theorem pc_eval_beta1 (L x r : ℕ) (ρ : PCRand) (hL : 2 ≤ L) (h64 : L ≤ 2 ^ 64)
    (hx : x < 2 ^ get_n_bits L) (hr : r < 2 ^ get_n_bits L)
    (hne : r ≠ get_r_mask L) (hρ : ρ.Valid (get_n_bits L)) :
    private_compare (decompose (x : ℤ) L) (r : ℤ) 1 L ρ
      = if x < (r + 1) % 2 ^ get_n_bits L then 1 else 0 := by
  obtain ⟨hl1, hl65, hlt⟩ := get_n_bits_facts L hL h64
  have hlen := decompose_length (x : ℤ) L
  have hmodlt : (r + 1) % 2 ^ get_n_bits L < 2 ^ get_n_bits L :=
    Nat.mod_lt _ (by positivity)
  have hnecast : (r : ℤ) ≠ (get_r_mask L : ℤ) := by exact_mod_cast hne
  have hceq : ∀ i, i < get_n_bits L →
      pc_c (decompose (x : ℤ) L) (r : ℤ) 1 L ρ.u i
        = cvec (get_n_bits L) (fun k => (nbit ((r + 1) % 2 ^ get_n_bits L) k : ℤ))
            (fun k => (nbit x k : ℤ)) i := by
    intro i hi
    rw [pc_c_beta1 _ _ _ _ _ hnecast, hlen]
    rw [pc_cbeta1_eq_cvec L x r i hi]
    refine cvec_congr (get_n_bits L) _ _ _ _ ?_ (fun k _ => rfl) i hi
    intro k hk
    rw [nbit_mod_pow (get_n_bits L) (r + 1) k hk]
  have h0 : ∀ i, i < (decompose (x : ℤ) L).length →
      0 ≤ pc_c (decompose (x : ℤ) L) (r : ℤ) 1 L ρ.u i := by
    intro i hi
    rw [hlen] at hi
    rw [hceq i hi]
    exact cvec_nonneg _ _ _ _
  have h1 : ∀ i, i < (decompose (x : ℤ) L).length →
      pc_c (decompose (x : ℤ) L) (r : ℤ) 1 L ρ.u i < (p : ℤ) := by
    intro i hi
    rw [hlen] at hi
    rw [hceq i hi]
    have hle := cvec_le (get_n_bits L) ((r + 1) % 2 ^ get_n_bits L) x i hi
    have hp : ((p : ℕ) : ℤ) = 67 := by norm_num [p]
    omega
  rw [pc_count _ _ _ _ _ (by rw [hlen]; exact hρ) h0 h1]
  rw [hlen, zeroCount_congr _ _ _ hceq,
    cvec_count _ _ _ hmodlt hx]
  split <;> norm_num

theorem pc_eval_else (L x : ℕ) (ρ : PCRand) (hL : 2 ≤ L) (h64 : L ≤ 2 ^ 64)
    (hx : x < 2 ^ get_n_bits L) (hρ : ρ.Valid (get_n_bits L)) :
    private_compare (decompose (x : ℤ) L) ((get_r_mask L : ℕ) : ℤ) 1 L ρ = 1 := by
  obtain ⟨hl1, hl65, hlt⟩ := get_n_bits_facts L hL h64
  have hlen := decompose_length (x : ℤ) L
  have hceq : ∀ i, i < get_n_bits L →
      pc_c (decompose (x : ℤ) L) ((get_r_mask L : ℕ) : ℤ) 1 L ρ.u i
        = if i = 0 then 0 else 1 := by
    intro i _
    rw [pc_c_else _ _ _ _ _ rfl, pc_celse_eq]
  have h0 : ∀ i, i < (decompose (x : ℤ) L).length →
      0 ≤ pc_c (decompose (x : ℤ) L) ((get_r_mask L : ℕ) : ℤ) 1 L ρ.u i := by
    intro i hi
    rw [hlen] at hi
    rw [hceq i hi]
    split <;> norm_num
  have h1 : ∀ i, i < (decompose (x : ℤ) L).length →
      pc_c (decompose (x : ℤ) L) ((get_r_mask L : ℕ) : ℤ) 1 L ρ.u i < (p : ℤ) := by
    intro i hi
    rw [hlen] at hi
    rw [hceq i hi]
    have hp : ((p : ℕ) : ℤ) = 67 := by norm_num [p]
    split <;> omega
  rw [pc_count _ _ _ _ _ (by rw [hlen]; exact hρ) h0 h1]
  rw [hlen, zeroCount_congr _ _ _ hceq]
  have hset : ((Finset.range (get_n_bits L)).filter fun i =>
      (if i = 0 then (0 : ℤ) else 1) = 0) = {0} := by
    ext j
    simp only [Finset.mem_filter, Finset.mem_range, Finset.mem_singleton]
    constructor
    · rintro ⟨hj, hj0⟩
      by_contra hc
      rw [if_neg hc] at hj0
      exact one_ne_zero hj0
    · intro h
      subst h
      exact ⟨by omega, by rw [if_pos rfl]⟩
  unfold zeroCount
  rw [hset]
  rfl

/-! ### C1: correctness of `private_compare` -/

/-- C1 (corrected), counterexample: over field 67 (the claim's concrete
scenario field; 6-bit decomposition) with plaintext x = 10, threshold r = 63
and masking bit beta = 1 — all inside [0, field) — the protocol reveals 0,
but beta XOR (x > r) = beta XOR 0 = 1.  Here r + 1 = 64 overflows the 6-bit
decomposition (r is the all-ones bit pattern), and r is not the value
get_r_mask 67 = 32 that the code's boundary branch checks for, so the wrap
goes unhandled. -/
theorem private_compare_bitwidth_cex :
    PCRand.Valid ⟨fun _ => 1, fun _ => 1, fun i => i⟩ (get_n_bits 67) ∧
    private_compare (decompose (10 : ℤ) 67) 63 1 67 ⟨fun _ => 1, fun _ => 1, fun i => i⟩
      = 0 ∧
    ¬(10 > 63) ∧ ((0 : ℤ) ≠ 1) := by
  refine ⟨?_, by decide, by decide, by decide⟩
  unfold PCRand.Valid
  decide

/-- C1 (corrected), amended: for every field `L` (at least 2, storable in 64
bits, bit width `l = get_n_bits L`), every plaintext `x` in `[0, 2^l)` whose
bit decomposition is shared, every masking bit `beta` in `{0, 1}`, and
well-formed common randomness, `private_compare` reveals exactly
`beta XOR (x > r)` for every public threshold `r` that either (a) satisfies
`r + 1 < 2^l` (no wrap of the bit decomposition of `r + 1`) and differs from
the balanced-boundary constant `get_r_mask L = L/2 - 1`, or (b) equals
`get_r_mask L` (the boundary case the code handles: the maximum
balanced-representable value, whose successor would wrap) while `x ≤ r`.
Outside this domain the revealed value can differ from `beta XOR (x > r)`
(see `private_compare_bitwidth_cex`). -/
theorem private_compare_correct (L x r : ℕ) (beta : ℤ) (ρ : PCRand)
    (hL : 2 ≤ L) (h64 : L ≤ 2 ^ 64)
    (hx : x < 2 ^ get_n_bits L)
    (hbeta : beta = 0 ∨ beta = 1)
    (hρ : ρ.Valid (get_n_bits L))
    (hr : (r + 1 < 2 ^ get_n_bits L ∧ r ≠ get_r_mask L) ∨ (r = get_r_mask L ∧ x ≤ r)) :
    private_compare (decompose (x : ℤ) L) (r : ℤ) beta L ρ
      = if (r < x ↔ beta = 0) then 1 else 0 := by
  obtain ⟨hl1, hl65, hlt⟩ := get_n_bits_facts L hL h64
  have hrm_lt : get_r_mask L < 2 ^ get_n_bits L := by
    unfold get_r_mask
    have h2 : L < 2 ^ get_n_bits L * 2 := by
      rw [← pow_succ]
      exact hlt
    omega
  rcases hbeta with hb | hb <;> subst hb
  · have hrlt : r < 2 ^ get_n_bits L := by
      rcases hr with ⟨h, _⟩ | ⟨h, _⟩
      · omega
      · omega
    rw [pc_eval_beta0 L x r ρ hL h64 hx hrlt hρ]
    by_cases hxr : r < x
    · rw [if_pos hxr, if_pos (by simp [hxr])]
    · rw [if_neg hxr, if_neg (by simp [hxr])]
  · rcases hr with ⟨hlt1, hne⟩ | ⟨heq, hle⟩
    · rw [pc_eval_beta1 L x r ρ hL h64 hx (by omega) hne hρ]
      have hmod : (r + 1) % 2 ^ get_n_bits L = r + 1 := Nat.mod_eq_of_lt hlt1
      rw [hmod]
      by_cases hxr : r < x
      · rw [if_neg (by omega), if_neg]
        rw [iff_false_intro (by norm_num : ¬((1 : ℤ) = 0))]
        simp [hxr]
      · rw [if_pos (by omega), if_pos]
        rw [iff_false_intro (by norm_num : ¬((1 : ℤ) = 0))]
        simp [hxr]
    · subst heq
      rw [pc_eval_else L x ρ hL h64 hx hρ]
      rw [if_pos]
      rw [iff_false_intro (by norm_num : ¬((1 : ℤ) = 0))]
      simp
      omega

/-- Witness for `private_compare_correct`: the spec's concrete scenario,
field 67, x = 10, r = 7, beta = 0 reveals 1; all hypotheses hold. -/
theorem private_compare_correct_witness :
    ((2 ≤ 67 ∧ 67 ≤ 2 ^ 64 ∧ 10 < 2 ^ get_n_bits 67) ∧
      PCRand.Valid ⟨fun _ => 1, fun _ => 1, fun i => i⟩ (get_n_bits 67) ∧
      (7 + 1 < 2 ^ get_n_bits 67 ∧ 7 ≠ get_r_mask 67)) ∧
    private_compare (decompose (10 : ℤ) 67) 7 0 67 ⟨fun _ => 1, fun _ => 1, fun i => i⟩
      = if (7 < 10 ↔ (0 : ℤ) = 0) then 1 else 0 := by
  have hv : PCRand.Valid ⟨fun _ => 1, fun _ => 1, fun i => i⟩ (get_n_bits 67) := by
    unfold PCRand.Valid
    decide
  refine ⟨⟨⟨by norm_num, by norm_num, by decide⟩, hv, by decide, by decide⟩, ?_⟩
  exact private_compare_correct 67 10 7 0 _ (by norm_num) (by norm_num) (by decide)
    (Or.inl rfl) hv (Or.inl ⟨by decide, by decide⟩)

/-! ### C4: what the helper observes in `private_compare` -/

/-- C4 (corrected), counterexample: over field 67 with x = 40, r = 32 and
beta = 1, the helper's zero count (which is what the protocol reveals) is 1,
but beta XOR (x > r) = 1 XOR 1 = 0: the branch for `r == get_r_mask L` fires
at r = 32 = get_r_mask 67 and unconditionally produces one zero entry even
though x > r is possible there, so the count does not equal
beta XOR (x > r) on all of [0, field). -/
theorem private_compare_rmask_cex :
    get_r_mask 67 = 32 ∧ (40 : ℕ) > 32 ∧
    PCRand.Valid ⟨fun _ => 1, fun _ => 1, fun i => i⟩ (get_n_bits 67) ∧
    private_compare (decompose (40 : ℤ) 67) 32 1 67 ⟨fun _ => 1, fun _ => 1, fun i => i⟩
      = 1 ∧
    ((1 : ℤ) ≠ 0) := by
  refine ⟨by decide, by decide, ?_, by decide, by decide⟩
  unfold PCRand.Valid
  decide

/-- C4 (corrected), amended: in every invocation of `private_compare` on a
genuine bit decomposition (`x < 2^l`) with a threshold below the bit width
(`r < 2^l`) and well-formed randomness, the blinded and permuted vector
opened by the helper contains exactly 0 or 1 zero entries (mod `p`); that
count is exactly the value the protocol reveals, and it is unchanged when
the element-wise blinding scalars — drawn from `[1, p-1]`, hence never zero
modulo the prime `p` — and the permutation are replaced by trivial ones, so
blinding preserves the set of zero positions modulo `p`.  The count equals
`beta XOR (x > r)` only on the amended domain of C1 (see
`private_compare_rmask_cex` for a violation at `r = get_r_mask L`). -/
theorem private_compare_helper_count (L x r : ℕ) (beta : ℤ) (ρ : PCRand)
    (hL : 2 ≤ L) (h64 : L ≤ 2 ^ 64) (hx : x < 2 ^ get_n_bits L)
    (hr : r < 2 ^ get_n_bits L) (hbeta : beta = 0 ∨ beta = 1)
    (hρ : ρ.Valid (get_n_bits L)) :
    (private_compare (decompose (x : ℤ) L) (r : ℤ) beta L ρ = 0 ∨
      private_compare (decompose (x : ℤ) L) (r : ℤ) beta L ρ = 1) ∧
    private_compare (decompose (x : ℤ) L) (r : ℤ) beta L ρ
      = private_compare (decompose (x : ℤ) L) (r : ℤ) beta L
          ⟨fun _ => 1, ρ.u, fun i => i⟩ := by
  have hρ2 : PCRand.Valid ⟨fun _ => 1, ρ.u, fun i => i⟩ (get_n_bits L) := by
    obtain ⟨hs, hu, hpm, hpi⟩ := hρ
    exact ⟨fun i _ => ⟨le_refl 1, by norm_num [p]⟩, hu,
      fun i hi => hi, fun i _ j _ h => h⟩
  rcases hbeta with hb | hb <;> subst hb
  · rw [pc_eval_beta0 L x r ρ hL h64 hx hr hρ,
      pc_eval_beta0 L x r _ hL h64 hx hr hρ2]
    constructor
    · split
      · right; rfl
      · left; rfl
    · rfl
  · by_cases hne : r = get_r_mask L
    · subst hne
      rw [pc_eval_else L x ρ hL h64 hx hρ, pc_eval_else L x _ hL h64 hx hρ2]
      exact ⟨Or.inr rfl, rfl⟩
    · rw [pc_eval_beta1 L x r ρ hL h64 hx hr hne hρ,
        pc_eval_beta1 L x r _ hL h64 hx hr hne hρ2]
      constructor
      · split
        · right; rfl
        · left; rfl
      · rfl

/-- Witness for `private_compare_helper_count` at field 67, x = 10, r = 7,
beta = 1. -/
theorem private_compare_helper_count_witness :
    ((2 ≤ 67 ∧ 67 ≤ 2 ^ 64) ∧ 10 < 2 ^ get_n_bits 67 ∧ 7 < 2 ^ get_n_bits 67 ∧
      PCRand.Valid ⟨fun _ => 1, fun _ => 1, fun i => i⟩ (get_n_bits 67)) ∧
    (private_compare (decompose (10 : ℤ) 67) 7 1 67 ⟨fun _ => 1, fun _ => 1, fun i => i⟩
        = 0 ∨
      private_compare (decompose (10 : ℤ) 67) 7 1 67 ⟨fun _ => 1, fun _ => 1, fun i => i⟩
        = 1) ∧
    private_compare (decompose (10 : ℤ) 67) 7 1 67 ⟨fun _ => 1, fun _ => 1, fun i => i⟩
      = private_compare (decompose (10 : ℤ) 67) 7 1 67
          ⟨fun _ => 1, fun _ => 1, fun i => i⟩ := by
  have hv : PCRand.Valid ⟨fun _ => 1, fun _ => 1, fun i => i⟩ (get_n_bits 67) := by
    unfold PCRand.Valid
    decide
  refine ⟨⟨⟨by norm_num, by norm_num⟩, by decide, by decide, hv⟩, ?_⟩
  exact private_compare_helper_count 67 10 7 1 _ (by norm_num) (by norm_num) (by decide)
    (by decide) (Or.inr rfl) hv

/-! ### Correctness of `msb` -/

theorem toSigned_nonneg_eq (f : ℕ) (v : ℤ) (h0 : 0 ≤ v) (h1 : v < (f : ℤ))
    (h2 : v ≤ (get_max_val_field f : ℤ)) : toSigned f v = v := by
  rw [toSigned_of_lt f v h0 h1, if_pos h2]

theorem toSigned_nonneg_iff (f : ℕ) (v : ℤ) (h0 : 0 ≤ v) (h1 : v < (f : ℤ)) :
    0 ≤ toSigned f v ↔ v ≤ (get_max_val_field f : ℤ) := by
  rw [toSigned_of_lt f v h0 h1]
  constructor
  · intro h
    by_contra hc
    rw [if_neg hc] at h
    omega
  · intro h
    rw [if_pos h]
    exact h0

theorem xor_mod_eval (L : ℕ) (hL : 4 ≤ L) (a b : ℤ)
    (ha : a = 0 ∨ a = 1) (hb : b = 0 ∨ b = 1) :
    (a + b - 2 * b * a) % (L : ℤ) = if a = b then 0 else 1 := by
  have h1 : (1 : ℤ) % (L : ℤ) = 1 := Int.emod_eq_of_lt (by norm_num) (by omega)
  rcases ha with h | h <;> rcases hb with h2 | h2 <;> subst h <;> subst h2 <;>
    norm_num <;> simp [h1]

theorem theta_mod_eval (L : ℕ) (hL : 4 ≤ L) (a b : ℤ)
    (ha : a = 0 ∨ a = 1) (hb : b = 0 ∨ b = 1) :
    (a + b - (a * b) % (L : ℤ) * 2) % (L : ℤ) = if a = b then 0 else 1 := by
  have h1 : (1 : ℤ) % (L : ℤ) = 1 := Int.emod_eq_of_lt (by norm_num) (by omega)
  rcases ha with h | h <;> rcases hb with h2 | h2 <;> subst h <;> subst h2 <;>
    norm_num <;> simp [h1]

theorem nbit_zero (n : ℕ) : nbit n 0 = n % 2 := by
  simp [nbit]

/-- `msb` computes the sign bit: on a canonical input value `a_val` of the
field `L - 1`, with well-formed randomness whose blinded reveal is
nonnegative, the result is 1 exactly when `a_val` decodes to a negative
value, i.e. exceeds the balanced maximum of field `L - 1`. -/
theorem msb_correct (L : ℕ) (a_val : ℤ) (ρ : MSBRand)
    (hL : 4 ≤ L) (hLe : 2 ∣ L) (h64 : L ≤ 2 ^ 64)
    (ha0 : 0 ≤ a_val) (ha1 : a_val < (L : ℤ) - 1)
    (hok : MSBOK L a_val ρ) :
    msb L a_val ρ = if (get_max_val_field (L - 1) : ℤ) < a_val then 1 else 0 := by
  obtain ⟨hβ, hx0, hx1, hρ, hr⟩ := hok
  obtain ⟨hl1, hl65, hlt2⟩ := get_n_bits_facts L (by omega) h64
  have hpow2 : L < 2 ^ get_n_bits L * 2 := by
    rw [← pow_succ]
    exact hlt2
  obtain ⟨K, hK⟩ := hLe
  have hL1 : ((L - 1 : ℕ) : ℤ) = (L : ℤ) - 1 := by omega
  have hM2 : 2 * (get_max_val_field (L - 1) : ℤ) = (L : ℤ) - 2 := by
    unfold get_max_val_field
    omega
  have hMx : (get_max_val_field (L - 1) : ℕ) = get_r_mask L := by
    unfold get_max_val_field get_r_mask
    omega
  have hLpos : (0 : ℤ) < (L : ℤ) - 1 := by omega
  -- the blinding value and the revealed value, in ℕ form
  have hxn : ρ.x = ((ρ.x.toNat : ℕ) : ℤ) := (Int.toNat_of_nonneg hx0).symm
  set xn := ρ.x.toNat with hxndef
  set y := (a_val * 2) % ((L : ℤ) - 1) with hydef
  have hy0 : 0 ≤ y := Int.emod_nonneg _ (by omega)
  have hy1 : y < (L : ℤ) - 1 := Int.emod_lt_of_pos _ hLpos
  have hycase : (a_val ≤ (get_max_val_field (L - 1) : ℤ) ∧ y = 2 * a_val) ∨
      ((get_max_val_field (L - 1) : ℤ) < a_val ∧ y = 2 * a_val - ((L : ℤ) - 1)) := by
    rcases le_or_lt a_val (get_max_val_field (L - 1) : ℤ) with h | h
    · left
      refine ⟨h, ?_⟩
      rw [hydef, Int.emod_eq_of_lt (by omega) (by omega)]
      ring
    · right
      refine ⟨h, ?_⟩
      rw [hydef]
      have h2 : (a_val * 2) % ((L : ℤ) - 1)
          = (a_val * 2 - ((L : ℤ) - 1)) % ((L : ℤ) - 1) := by
        conv_lhs => rw [show a_val * 2 = (a_val * 2 - ((L : ℤ) - 1)) + ((L : ℤ) - 1) * 1 by ring]
        rw [Int.add_mul_emod_self_left]
      rw [h2, Int.emod_eq_of_lt (by omega) (by omega)]
      ring
  set rc := (y + ρ.x) % ((L : ℤ) - 1) with hrcdef
  have hrc0 : 0 ≤ rc := Int.emod_nonneg _ (by omega)
  have hrc1 : rc < (L : ℤ) - 1 := Int.emod_lt_of_pos _ hLpos
  -- the nonnegative-reveal hypothesis identifies the reveal with rc
  have hreq : (a_val * 2 + ρ.x) % ((L : ℤ) - 1) = rc := by
    rw [hrcdef, hydef, Int.emod_add_emod]
  rw [hreq] at hr
  have hrle : rc ≤ (get_max_val_field (L - 1) : ℤ) := by
    rw [toSigned_nonneg_iff (L - 1) rc hrc0 (by omega)] at hr
    exact hr
  have hts : toSigned (L - 1) rc = rc :=
    toSigned_nonneg_eq (L - 1) rc hrc0 (by omega) hrle
  have hrn : rc = ((rc.toNat : ℕ) : ℤ) := (Int.toNat_of_nonneg hrc0).symm
  set rn := rc.toNat with hrndef
  -- the wrap indicator
  have hwrap : (rn < xn ∧ rc = ρ.x + y - ((L : ℤ) - 1)) ∨
      (¬(rn < xn) ∧ rc = ρ.x + y) := by
    rcases le_or_lt ((L : ℤ) - 1) (ρ.x + y) with h | h
    · left
      have h2 : rc = ρ.x + y - ((L : ℤ) - 1) := by
        rw [hrcdef]
        have h3 : (y + ρ.x) % ((L : ℤ) - 1)
            = (y + ρ.x - ((L : ℤ) - 1)) % ((L : ℤ) - 1) := by
          conv_lhs => rw [show y + ρ.x = (y + ρ.x - ((L : ℤ) - 1)) + ((L : ℤ) - 1) * 1 by ring]
          rw [Int.add_mul_emod_self_left]
        rw [h3, Int.emod_eq_of_lt (by omega) (by omega)]
        ring
      refine ⟨by omega, h2⟩
    · right
      have h2 : rc = ρ.x + y := by
        rw [hrcdef, Int.emod_eq_of_lt (by omega) (by omega)]
        ring
      refine ⟨by omega, h2⟩
  -- private_compare on the revealed value
  have hxnlt : xn < 2 ^ get_n_bits L := by
    have hMlt : 2 * get_r_mask L + 2 = L := by
      unfold get_r_mask
      omega
    have hrmlt : get_r_mask L < 2 ^ get_n_bits L := by omega
    omega
  have hrdom : (rn + 1 < 2 ^ get_n_bits L ∧ rn ≠ get_r_mask L) ∨
      (rn = get_r_mask L ∧ xn ≤ rn) := by
    have hrmlt : get_r_mask L < 2 ^ get_n_bits L := by
      unfold get_r_mask
      omega
    rcases Nat.lt_or_ge rn (get_r_mask L) with h | h
    · left
      omega
    · right
      have hrm : rn = get_r_mask L := by omega
      refine ⟨hrm, ?_⟩
      omega
  have hβeval := private_compare_correct L xn rn ρ.beta ρ.pc (by omega) h64 hxnlt hβ hρ hrdom
  -- evaluate the msb expression
  simp only [msb]
  rw [← hydef, ← hrcdef, hts]
  rw [hxn, hrn]
  rw [hβeval]
  rw [decompose_getD_nat xn L 0 (by omega), decompose_getD_nat rn L 0 (by omega)]
  have hb01 : (if (rn < xn ↔ ρ.beta = 0) then (1 : ℤ) else 0) = 0 ∨
      (if (rn < xn ↔ ρ.beta = 0) then (1 : ℤ) else 0) = 1 := by
    split
    · right; rfl
    · left; rfl
  have hnx01 : ((nbit xn 0 : ℤ)) = 0 ∨ ((nbit xn 0 : ℤ)) = 1 := by
    have := nbit_lt_two xn 0
    omega
  have hnr01 : ((nbit rn 0 : ℤ)) = 0 ∨ ((nbit rn 0 : ℤ)) = 1 := by
    have := nbit_lt_two rn 0
    omega
  rw [xor_mod_eval L hL _ _ hb01 hβ]
  rw [xor_mod_eval L hL _ _ hnx01 hnr01]
  have hg01 : (if (if (rn < xn ↔ ρ.beta = 0) then (1 : ℤ) else 0) = ρ.beta
      then (0 : ℤ) else 1) = 0 ∨
      (if (if (rn < xn ↔ ρ.beta = 0) then (1 : ℤ) else 0) = ρ.beta
      then (0 : ℤ) else 1) = 1 := by
    by_cases h : (if (rn < xn ↔ ρ.beta = 0) then (1 : ℤ) else 0) = ρ.beta
    · rw [if_pos h]
      left
      rfl
    · rw [if_neg h]
      right
      rfl
  have hd01 : (if ((nbit xn 0 : ℤ)) = ((nbit rn 0 : ℤ)) then (0 : ℤ) else 1) = 0 ∨
      (if ((nbit xn 0 : ℤ)) = ((nbit rn 0 : ℤ)) then (0 : ℤ) else 1) = 1 := by
    by_cases h : ((nbit xn 0 : ℤ)) = ((nbit rn 0 : ℤ))
    · rw [if_pos h]
      left
      rfl
    · rw [if_neg h]
      right
      rfl
  rw [theta_mod_eval L hL _ _ hg01 hd01]
  -- reduce gamma to the wrap indicator
  have hgam : (if (if (rn < xn ↔ ρ.beta = 0) then (1 : ℤ) else 0) = ρ.beta
      then (0 : ℤ) else 1) = if rn < xn then 1 else 0 := by
    rcases hβ with h | h <;> rw [h] <;> by_cases hc : rn < xn <;> simp [hc]
  rw [hgam]
  -- parity bookkeeping
  have hpx : ((nbit xn 0 : ℤ)) = ((xn : ℕ) : ℤ) % 2 := by
    rw [nbit_zero]
    push_cast
    rfl
  have hpr : ((nbit rn 0 : ℤ)) = ((rn : ℕ) : ℤ) % 2 := by
    rw [nbit_zero]
    push_cast
    rfl
  have hxc : ((xn : ℕ) : ℤ) = ρ.x := by omega
  have hrc2 : ((rn : ℕ) : ℤ) = rc := by omega
  by_cases hma : (get_max_val_field (L - 1) : ℤ) < a_val
  · -- a_val decodes negative: the sign bit is 1
    have hyv : y = 2 * a_val - ((L : ℤ) - 1) := by
      rcases hycase with ⟨h, _⟩ | ⟨_, h⟩
      · omega
      · exact h
    rw [if_pos hma]
    by_cases hm : rn < xn
    · have hw2 : rc = ρ.x + y - ((L : ℤ) - 1) := by
        rcases hwrap with ⟨_, h⟩ | ⟨h1, _⟩
        · exact h
        · exact absurd hm h1
      have hpar : ((nbit xn 0 : ℤ)) = ((nbit rn 0 : ℤ)) := by
        rw [hpx, hpr]
        omega
      rw [if_pos hm, if_pos hpar]
      norm_num
    · have hw2 : rc = ρ.x + y := by
        rcases hwrap with ⟨h1, _⟩ | ⟨_, h⟩
        · exact absurd h1 hm
        · exact h
      have hpar : ¬((nbit xn 0 : ℤ)) = ((nbit rn 0 : ℤ)) := by
        rw [hpx, hpr]
        omega
      rw [if_neg hm, if_neg hpar]
      norm_num
  · -- a_val decodes nonnegative: the sign bit is 0
    have hyv : y = 2 * a_val := by
      rcases hycase with ⟨_, h⟩ | ⟨h, _⟩
      · exact h
      · omega
    rw [if_neg hma]
    by_cases hm : rn < xn
    · have hw2 : rc = ρ.x + y - ((L : ℤ) - 1) := by
        rcases hwrap with ⟨_, h⟩ | ⟨h1, _⟩
        · exact h
        · exact absurd hm h1
      have hpar : ¬((nbit xn 0 : ℤ)) = ((nbit rn 0 : ℤ)) := by
        rw [hpx, hpr]
        omega
      rw [if_pos hm, if_neg hpar]
      norm_num
    · have hw2 : rc = ρ.x + y := by
        rcases hwrap with ⟨h1, _⟩ | ⟨_, h⟩
        · exact absurd h1 hm
        · exact h
      have hpar : ((nbit xn 0 : ℤ)) = ((nbit rn 0 : ℤ)) := by
        rw [hpx, hpr]
        omega
      rw [if_neg hm, if_pos hpar]
      norm_num

/-! ### Evaluating `relu_deriv` -/

/-- On a sharing whose canonical value `c` represents the plaintext `ζ`
(`c ≡ ζ (mod L)`, `|4ζ| ≤ L - 2`), with well-formed randomness (no share
wrap at the conversion, nonnegative blinded reveal), `relu_deriv` returns 1
when `ζ ≥ 0` and 0 when `ζ < 0`: the tie at `ζ = 0` yields 1. -/
theorem relu_deriv_eval (L : ℕ) (c ζ : ℤ) (ρ : RDRand)
    (hL : 4 ≤ L) (hLe : 2 ∣ L) (h64 : L ≤ 2 ^ 64)
    (hc : c % (L : ℤ) = ζ % (L : ℤ))
    (hrange : 4 * ζ ≤ (L : ℤ) - 2 ∧ -((L : ℤ) - 2) ≤ 4 * ζ)
    (hok : RDOK L c ρ) :
    relu_deriv L c ρ = if 0 ≤ ζ then 1 else 0 := by
  obtain ⟨hwrap, hmsb⟩ := hok
  obtain ⟨K, hK⟩ := hLe
  have hM2 : 2 * (get_max_val_field (L - 1) : ℤ) = (L : ℤ) - 2 := by
    unfold get_max_val_field
    omega
  have hLpos : (0 : ℤ) < (L : ℤ) - 1 := by omega
  have hy : (c * 2) % (L : ℤ) = (ζ * 2) % (L : ℤ) := by
    conv_lhs => rw [Int.mul_emod, hc, ← Int.mul_emod]
  have hts : toSigned L ((ζ * 2) % (L : ℤ)) = 2 * ζ := by
    rw [toSigned_congr L ((ζ * 2) % (L : ℤ)) (2 * ζ)
      (by rw [Int.emod_emod_of_dvd _ dvd_rfl, mul_comm])]
    exact toSigned_eq_self L (2 * ζ) (by omega) (by omega) (by omega)
  rw [hy, hts] at hmsb
  simp only [relu_deriv]
  rw [hwrap, zero_mul, add_zero, hy, hts]
  have hc0 : 0 ≤ (2 * ζ) % ((L : ℤ) - 1) := Int.emod_nonneg _ (by omega)
  have hc1 : (2 * ζ) % ((L : ℤ) - 1) < (L : ℤ) - 1 := Int.emod_lt_of_pos _ hLpos
  have halpha := msb_correct L ((2 * ζ) % ((L : ℤ) - 1)) ρ.mr hL ⟨K, hK⟩ h64 hc0 hc1 hmsb
  rw [halpha]
  have hone : (1 : ℤ) % (L : ℤ) = 1 := Int.emod_eq_of_lt (by norm_num) (by omega)
  by_cases hz : 0 ≤ ζ
  · have hconv : (2 * ζ) % ((L : ℤ) - 1) = 2 * ζ :=
      Int.emod_eq_of_lt (by omega) (by omega)
    rw [if_neg (by omega), if_pos hz]
    norm_num
    exact hone
  · have hconv : (2 * ζ) % ((L : ℤ) - 1) = 2 * ζ + ((L : ℤ) - 1) := by
      conv_lhs => rw [show 2 * ζ = (2 * ζ + ((L : ℤ) - 1)) + ((L : ℤ) - 1) * (-1) by ring]
      rw [Int.add_mul_emod_self_left, Int.emod_eq_of_lt (by omega) (by omega)]
    rw [if_pos (by omega), if_neg hz]
    norm_num

/-! ### C2: `relu_deriv` -/

/-- C2 (corrected), counterexample: at the tie `a = 0` (field `2 ^ 16`,
blinding value 0, masking bit 0, no share wrap — a legitimate execution)
`relu_deriv` decrypts to 1, not 0: `msb(2 * 0) = 0` and the result is
`role-index-sum - msb = 1`.  The claim says `a ≤ 0` yields 0. -/
theorem relu_deriv_zero_tie_cex :
    RDOK (2 ^ 16) ((0 : ℤ) % (2 ^ 16 : ℕ))
      ⟨0, ⟨0, 0, ⟨fun _ => 1, fun _ => 1, fun i => i⟩⟩⟩ ∧
    toSigned (2 ^ 16)
      (relu_deriv (2 ^ 16) ((0 : ℤ) % (2 ^ 16 : ℕ))
        ⟨0, ⟨0, 0, ⟨fun _ => 1, fun _ => 1, fun i => i⟩⟩⟩) = 1 ∧
    ((1 : ℤ) ≠ 0) := by
  refine ⟨?_, by decide, by decide⟩
  unfold RDOK MSBOK PCRand.Valid
  decide

/-- C2 (corrected), amended: for every field `L` (even, `4 ≤ L ≤ 2 ^ 64`)
and every representable signed value `a` with `|4a| ≤ L - 2`, in executions
with well-formed randomness (shares of `2a` add without wrapping at the
share conversion, and the blinded reveal inside `msb` is nonnegative),
`decrypt(relu_deriv(share(a)))` equals 1 if `a ≥ 0` and 0 if `a < 0`,
computed as `role-index - msb(share_convert(2a)) + zero-share`; the tie at
exactly `a == 0` yields 1, not 0 (see `relu_deriv_zero_tie_cex`; the
division protocol relies on this tie behavior). -/
theorem relu_deriv_correct_amended (L : ℕ) (a : ℤ) (ρ : RDRand)
    (hL : 4 ≤ L) (hLe : 2 ∣ L) (h64 : L ≤ 2 ^ 64)
    (hrange : 4 * a ≤ (L : ℤ) - 2 ∧ -((L : ℤ) - 2) ≤ 4 * a)
    (hok : RDOK L (a % (L : ℤ)) ρ) :
    toSigned L (relu_deriv L (a % (L : ℤ)) ρ) = if 0 ≤ a then 1 else 0 := by
  rw [relu_deriv_eval L (a % (L : ℤ)) a ρ hL hLe h64
    (Int.emod_emod_of_dvd _ dvd_rfl) hrange hok]
  have h1 : (1 : ℤ) ≤ (get_max_val_field L : ℤ) := by
    unfold get_max_val_field
    omega
  split
  · exact toSigned_nonneg_eq L 1 (by norm_num) (by omega) (by omega)
  · exact toSigned_nonneg_eq L 0 (by norm_num) (by omega) (by omega)

/-- Witness for `relu_deriv_correct_amended`: field `2 ^ 16`, `a = -3`, the
helper's blinding value 12 (which makes the blinded reveal 0). -/
theorem relu_deriv_correct_amended_witness :
    ((4 ≤ 2 ^ 16 ∧ 2 ∣ 2 ^ 16 ∧ 2 ^ 16 ≤ 2 ^ 64) ∧
      (4 * (-3 : ℤ) ≤ (2 ^ 16 : ℕ) - 2 ∧ -((2 ^ 16 : ℕ) - 2 : ℤ) ≤ 4 * (-3)) ∧
      RDOK (2 ^ 16) ((-3 : ℤ) % (2 ^ 16 : ℕ))
        ⟨0, ⟨0, 12, ⟨fun _ => 1, fun _ => 1, fun i => i⟩⟩⟩) ∧
    toSigned (2 ^ 16)
      (relu_deriv (2 ^ 16) ((-3 : ℤ) % (2 ^ 16 : ℕ))
        ⟨0, ⟨0, 12, ⟨fun _ => 1, fun _ => 1, fun i => i⟩⟩⟩)
      = if 0 ≤ (-3 : ℤ) then 1 else 0 := by
  have hok : RDOK (2 ^ 16) ((-3 : ℤ) % (2 ^ 16 : ℕ))
      ⟨0, ⟨0, 12, ⟨fun _ => 1, fun _ => 1, fun i => i⟩⟩⟩ := by
    unfold RDOK MSBOK PCRand.Valid
    decide
  refine ⟨⟨⟨by norm_num, ⟨2 ^ 15, by norm_num⟩, by norm_num⟩,
    ⟨by norm_num, by norm_num⟩, hok⟩, ?_⟩
  exact relu_deriv_correct_amended (2 ^ 16) (-3)
    ⟨0, ⟨0, 12, ⟨fun _ => 1, fun _ => 1, fun i => i⟩⟩⟩
    (by norm_num) ⟨2 ^ 15, by norm_num⟩ (by norm_num) ⟨by norm_num, by norm_num⟩ hok

/-! ### The division loop -/

theorem emod_sub_sub (n : ℕ) (a b c : ℤ) :
    (a % (n : ℤ) - b % (n : ℤ) - c % (n : ℤ)) % (n : ℤ) = (a - b - c) % (n : ℤ) :=
  Int.ModEq.sub (Int.ModEq.sub (Int.emod_emod_of_dvd a dvd_rfl)
    (Int.emod_emod_of_dvd b dvd_rfl)) (Int.emod_emod_of_dvd c dvd_rfl)

theorem emod_add_add (n : ℕ) (a b : ℤ) :
    (a % (n : ℤ) + b % (n : ℤ)) % (n : ℤ) = (a + b) % (n : ℤ) :=
  (Int.add_emod a b (n : ℤ)).symm

theorem emod_mul_right (n : ℕ) (a b : ℤ) :
    (a * (b % (n : ℤ))) % (n : ℤ) = (a * b) % (n : ℤ) := by
  conv_lhs => rw [Int.mul_emod, Int.emod_emod_of_dvd _ dvd_rfl, ← Int.mul_emod]

theorem emod_sub_right (n : ℕ) (a b : ℤ) :
    (a - b % (n : ℤ)) % (n : ℤ) = (a - b) % (n : ℤ) :=
  Int.ModEq.sub (Int.ModEq.refl a) (Int.emod_emod_of_dvd b dvd_rfl)

theorem emod_add_right (n : ℕ) (a b : ℤ) :
    (a + b % (n : ℤ)) % (n : ℤ) = (a + b) % (n : ℤ) :=
  Int.ModEq.add (Int.ModEq.refl a) (Int.emod_emod_of_dvd b dvd_rfl)

/-- Evaluation of `division`'s restoring-division loop on a nonnegative
dividend `xv` and positive divisor `yv`: with well-formed randomness and every
intermediate in the fields' safe range, the loop with `i` trial bits left and
amount `uv` already used computes the exact quotient `(xv - uv) / yv`,
provided it still fits in `i` bits. -/
theorem division_go_eval (L : ℕ) (xv yv : ℤ) (ρs : ℕ → RDRand)
    (hL : 4 ≤ L) (hLe : 2 ∣ L) (h64 : L ≤ 2 ^ 64)
    (hx0 : 0 ≤ xv) (hy : 1 ≤ yv) :
    ∀ i : ℕ, ∀ uv : ℤ, 0 ≤ uv → uv ≤ xv →
      (xv - uv) / yv < 2 ^ i →
      4 * (xv + 2 ^ i * yv) ≤ (L : ℤ) - 2 →
      DivOK L (xv % (L : ℤ)) (yv % (L : ℤ)) ρs i (uv % (L : ℤ)) →
      division_go L (xv % (L : ℤ)) (yv % (L : ℤ)) ρs i (uv % (L : ℤ)) = (xv - uv) / yv := by
  intro i
  induction i with
  | zero =>
    intro uv h0 h1 hq _ _
    rw [pow_zero] at hq
    have hnn : 0 ≤ (xv - uv) / yv := Int.ediv_nonneg (by omega) (by omega)
    simp only [division_go]
    linarith
  | succ i ih =>
    intro uv h0 h1 hq hrange hok
    have hL4 : (4 : ℤ) ≤ (L : ℤ) := by exact_mod_cast hL
    have h2i0 : (0 : ℤ) < 2 ^ i := by positivity
    have hT0 : (0 : ℤ) ≤ 2 ^ i * yv := by positivity
    have hT1 : (2 : ℤ) ^ i ≤ 2 ^ i * yv := le_mul_of_one_le_right (by positivity) hy
    have hT2 : (4 : ℤ) * (xv + 2 ^ (i + 1) * yv) = 4 * xv + 8 * (2 ^ i * yv) := by ring
    rw [hT2] at hrange
    have hq' : (xv - uv) / yv < 2 ^ i * 2 := by
      rw [← pow_succ]
      exact hq
    simp only [division_go]
    simp only [DivOK] at hok
    obtain ⟨hrd, hrest⟩ := hok
    have hzmod : ((xv % (L : ℤ)) - (uv % (L : ℤ)) - ((2 ^ i * (yv % (L : ℤ))) % (L : ℤ))) % (L : ℤ)
        = (xv - uv - 2 ^ i * yv) % (L : ℤ) := by
      rw [emod_mul_right L (2 ^ i) yv]
      exact emod_sub_sub L xv uv (2 ^ i * yv)
    have hβ : relu_deriv L
        (((xv % (L : ℤ)) - (uv % (L : ℤ)) - ((2 ^ i * (yv % (L : ℤ))) % (L : ℤ))) % (L : ℤ)) (ρs i)
        = if 0 ≤ xv - uv - 2 ^ i * yv then 1 else 0 := by
      refine relu_deriv_eval L _ (xv - uv - 2 ^ i * yv) (ρs i) hL hLe h64 ?_ ⟨?_, ?_⟩ hrd
      · rw [Int.emod_emod_of_dvd _ dvd_rfl]
        exact hzmod
      · linarith
      · linarith
    rw [hβ] at hrest ⊢
    by_cases hpos : 0 ≤ xv - uv - 2 ^ i * yv
    · rw [if_pos hpos] at hrest ⊢
      have hsub : (xv - (uv + 2 ^ i * yv)) / yv = (xv - uv) / yv - 2 ^ i := by
        have h := Int.add_mul_ediv_right (xv - (uv + 2 ^ i * yv)) (2 ^ i)
          (show yv ≠ 0 by omega)
        rw [show xv - (uv + 2 ^ i * yv) + 2 ^ i * yv = xv - uv by ring] at h
        linarith
      have hge : 2 ^ i ≤ (xv - uv) / yv := by
        rw [Int.le_ediv_iff_mul_le (show (0 : ℤ) < yv by omega)]
        linarith
      have hu' : ((uv % (L : ℤ)) + ((1 : ℤ) * ((2 ^ i * (yv % (L : ℤ))) % (L : ℤ))) % (L : ℤ)) % (L : ℤ)
          = (uv + 2 ^ i * yv) % (L : ℤ) := by
        rw [one_mul, Int.emod_emod_of_dvd _ dvd_rfl, emod_mul_right L (2 ^ i) yv]
        exact emod_add_add L uv (2 ^ i * yv)
      rw [hu'] at hrest ⊢
      have hrec := ih (uv + 2 ^ i * yv) (by linarith) (by linarith)
        (by rw [hsub]; linarith) (by linarith) hrest
      rw [hrec, one_mul, hsub]
      have h2iL : (2 : ℤ) ^ i % (L : ℤ) = 2 ^ i :=
        Int.emod_eq_of_lt (by positivity) (by linarith)
      rw [h2iL, show (2 : ℤ) ^ i + ((xv - uv) / yv - 2 ^ i) = (xv - uv) / yv by ring]
      exact Int.emod_eq_of_lt (by linarith) (by linarith)
    · rw [if_neg hpos] at hrest ⊢
      have hlt2 : (xv - uv) / yv < 2 ^ i := by
        rw [Int.ediv_lt_iff_lt_mul (show (0 : ℤ) < yv by omega)]
        linarith
      have hu0 : ((uv % (L : ℤ)) + ((0 : ℤ) * ((2 ^ i * (yv % (L : ℤ))) % (L : ℤ))) % (L : ℤ)) % (L : ℤ)
          = uv % (L : ℤ) := by
        rw [zero_mul, Int.zero_emod, add_zero, Int.emod_emod_of_dvd _ dvd_rfl]
      rw [hu0] at hrest ⊢
      have hrec := ih uv h0 h1 hlt2 (by linarith) hrest
      rw [hrec, zero_mul, Int.zero_emod, zero_add]
      have hnn : 0 ≤ (xv - uv) / yv := Int.ediv_nonneg (by linarith) (by linarith)
      exact Int.emod_eq_of_lt hnn (by linarith)

/-! ### C5: `division` -/

/-- C5 (corrected), counterexample: dividend `-6` and divisor `-3` — matching
sign, magnitudes well inside the safe range of field `2 ^ 16`, 4 trial bits,
and well-formed randomness at every step of the loop.  Floor division gives
`(-6) // (-3) = 2`, but the protocol reveals 15 (`= 2 ^ 4 - 1`, nowhere near
the quotient for any precision reading): the trial comparison
`relu_deriv(x - u - 2 ^ i * y)` is answered against the balanced-signed
values, and with a negative divisor each trial subtraction only raises the
remainder, so every quotient bit comes out 1. -/
theorem division_negative_pair_cex :
    DivOK (2 ^ 16) ((-6 : ℤ) % (2 ^ 16 : ℕ)) ((-3 : ℤ) % (2 ^ 16 : ℕ))
      (fun _ => rdr 0) 4 0 ∧
    toSigned (2 ^ 16)
      (division (2 ^ 16) ((-6 : ℤ) % (2 ^ 16 : ℕ)) ((-3 : ℤ) % (2 ^ 16 : ℕ)) (some 4)
        (fun _ => rdr 0)) = 15 ∧
    Int.fdiv (-6) (-3) = 2 ∧ (15 : ℤ) ≠ 2 := by
  refine ⟨?_, by decide, by decide, by decide⟩
  simp only [DivOK]
  refine ⟨?_, ?_, ?_, ?_, trivial⟩ <;> (unfold RDOK MSBOK PCRand.Valid rdr; decide)

/-- C5 (corrected), amended: for every even field `L` (`4 ≤ L ≤ 2 ^ 64`),
every NONNEGATIVE dividend `x` and POSITIVE divisor `y` whose quotient fits in
the `b` trial bits (`x / y < 2 ^ b`) and whose intermediates stay in the safe
range (`4 * (x + 2 ^ b * y) ≤ L - 2`), in executions with well-formed
randomness at every step, `decrypt(division(share(x), share(y), b))` equals
`floor(x / y)` exactly.  Outside this domain (mixed or negative signs) the
result can be arbitrary garbage, see `division_negative_pair_cex`. -/
theorem division_correct_amended (L : ℕ) (x y : ℤ) (b : ℕ) (ρs : ℕ → RDRand)
    (hL : 4 ≤ L) (hLe : 2 ∣ L) (h64 : L ≤ 2 ^ 64)
    (hx : 0 ≤ x) (hy : 1 ≤ y) (hq : x / y < 2 ^ b)
    (hrange : 4 * (x + 2 ^ b * y) ≤ (L : ℤ) - 2)
    (hok : DivOK L (x % (L : ℤ)) (y % (L : ℤ)) ρs b 0) :
    toSigned L (division L (x % (L : ℤ)) (y % (L : ℤ)) (some b) ρs) = x / y := by
  have hL4 : (4 : ℤ) ≤ (L : ℤ) := by exact_mod_cast hL
  have h0L : (0 : ℤ) % (L : ℤ) = 0 := Int.zero_emod _
  have hdiv : division L (x % (L : ℤ)) (y % (L : ℤ)) (some b) ρs
      = division_go L (x % (L : ℤ)) (y % (L : ℤ)) ρs b ((0 : ℤ) % (L : ℤ)) := by
    rw [h0L]
    rfl
  have hok' : DivOK L (x % (L : ℤ)) (y % (L : ℤ)) ρs b ((0 : ℤ) % (L : ℤ)) := by
    rw [h0L]
    exact hok
  have hmain := division_go_eval L x y ρs hL hLe h64 hx hy b 0 le_rfl hx
    (by simpa using hq) hrange hok'
  rw [sub_zero] at hmain
  rw [hdiv, hmain]
  have hby : (2 : ℤ) ^ b ≤ 2 ^ b * y := le_mul_of_one_le_right (by positivity) hy
  have hq1 : 0 ≤ x / y := Int.ediv_nonneg hx (by omega)
  refine toSigned_nonneg_eq L (x / y) hq1 (by linarith) ?_
  rw [get_max_val_field_cast L (by omega), Int.le_ediv_iff_mul_le (by norm_num : (0 : ℤ) < 2)]
  linarith

/-- Witness for `division_correct_amended`: `13 / 3` with 4 trial bits in
field `2 ^ 16`; the per-step blinding values keep every blinded `msb` reveal
nonnegative, and the revealed quotient is `4 = 13 / 3`. -/
theorem division_correct_amended_witness :
    ((4 ≤ 2 ^ 16 ∧ 2 ∣ 2 ^ 16 ∧ 2 ^ 16 ≤ 2 ^ 64) ∧
      (0 ≤ (13 : ℤ) ∧ 1 ≤ (3 : ℤ) ∧ (13 : ℤ) / 3 < 2 ^ 4) ∧
      4 * ((13 : ℤ) + 2 ^ 4 * 3) ≤ ((2 ^ 16 : ℕ) : ℤ) - 2 ∧
      DivOK (2 ^ 16) ((13 : ℤ) % (2 ^ 16 : ℕ)) ((3 : ℤ) % (2 ^ 16 : ℕ))
        (fun i => rdr (if i = 3 then 44 else if i = 2 then 0 else if i = 1 then 20 else 8))
        4 0) ∧
    toSigned (2 ^ 16)
      (division (2 ^ 16) ((13 : ℤ) % (2 ^ 16 : ℕ)) ((3 : ℤ) % (2 ^ 16 : ℕ)) (some 4)
        (fun i => rdr (if i = 3 then 44 else if i = 2 then 0 else if i = 1 then 20 else 8)))
      = 13 / 3 := by
  have hok : DivOK (2 ^ 16) ((13 : ℤ) % (2 ^ 16 : ℕ)) ((3 : ℤ) % (2 ^ 16 : ℕ))
      (fun i => rdr (if i = 3 then 44 else if i = 2 then 0 else if i = 1 then 20 else 8))
      4 0 := by
    simp only [DivOK]
    refine ⟨?_, ?_, ?_, ?_, trivial⟩ <;> (unfold RDOK MSBOK PCRand.Valid rdr; decide)
  refine ⟨⟨⟨by norm_num, ⟨2 ^ 15, by norm_num⟩, by norm_num⟩,
    ⟨by norm_num, by norm_num, by decide⟩, by norm_num, hok⟩, ?_⟩
  exact division_correct_amended (2 ^ 16) 13 3 4
    (fun i => rdr (if i = 3 then 44 else if i = 2 then 0 else if i = 1 then 20 else 8))
    (by norm_num) ⟨2 ^ 15, by norm_num⟩ (by norm_num) (by norm_num) (by norm_num)
    (by decide) (by norm_num) hok

/-! ### C10: the shape of `division`'s output -/

/-- The quotient revealed by `division`'s loop is exactly the weighted sum of
the per-step `relu_deriv` answers, each answer is a bit, and the revealed
value lies in `[0, 2 ^ i - 1]` — for arbitrary signs of the operands, as long
as the randomness is well-formed and all intermediates stay in the safe
range. -/
theorem division_go_bits (L : ℕ) (xv yv : ℤ) (ρs : ℕ → RDRand)
    (hL : 4 ≤ L) (hLe : 2 ∣ L) (h64 : L ≤ 2 ^ 64) :
    ∀ i : ℕ, ∀ uv : ℤ,
      4 * (|xv| + |uv| + 2 ^ i * (1 + |yv|)) ≤ (L : ℤ) - 2 →
      DivOK L (xv % (L : ℤ)) (yv % (L : ℤ)) ρs i (uv % (L : ℤ)) →
      division_go L (xv % (L : ℤ)) (yv % (L : ℤ)) ρs i (uv % (L : ℤ))
        = bitsum (division_bits L (xv % (L : ℤ)) (yv % (L : ℤ)) ρs i (uv % (L : ℤ))) ∧
      (∀ c ∈ division_bits L (xv % (L : ℤ)) (yv % (L : ℤ)) ρs i (uv % (L : ℤ)),
        c = 0 ∨ c = 1) ∧
      (division_bits L (xv % (L : ℤ)) (yv % (L : ℤ)) ρs i (uv % (L : ℤ))).length = i ∧
      0 ≤ division_go L (xv % (L : ℤ)) (yv % (L : ℤ)) ρs i (uv % (L : ℤ)) ∧
      division_go L (xv % (L : ℤ)) (yv % (L : ℤ)) ρs i (uv % (L : ℤ)) ≤ 2 ^ i - 1 := by
  intro i
  induction i with
  | zero =>
    intro uv _ _
    simp only [division_go, division_bits, bitsum, List.length_nil, List.not_mem_nil]
    norm_num
  | succ i ih =>
    intro uv hrange hok
    have hL4 : (4 : ℤ) ≤ (L : ℤ) := by exact_mod_cast hL
    have h2i0 : (0 : ℤ) < 2 ^ i := by positivity
    have hp1 : (2 : ℤ) ^ (i + 1) = 2 * 2 ^ i := by ring
    have hP : (2 : ℤ) ^ (i + 1) * (1 + |yv|) = 2 * 2 ^ i + 2 * (2 ^ i * |yv|) := by ring
    rw [hP] at hrange
    have habs1 : |2 ^ i * yv| = 2 ^ i * |yv| := by
      rw [abs_mul, abs_of_nonneg (by positivity : (0 : ℤ) ≤ 2 ^ i)]
    have habsy0 : (0 : ℤ) ≤ 2 ^ i * |yv| := by positivity
    have htri : |uv + 2 ^ i * yv| ≤ |uv| + 2 ^ i * |yv| := by
      calc |uv + 2 ^ i * yv| ≤ |uv| + |2 ^ i * yv| := abs_add _ _
        _ = |uv| + 2 ^ i * |yv| := by rw [habs1]
    have hx1 : xv ≤ |xv| := le_abs_self xv
    have hx2 : -|xv| ≤ xv := neg_abs_le xv
    have hu1 : uv ≤ |uv| := le_abs_self uv
    have hu2 : -|uv| ≤ uv := neg_abs_le uv
    have hy1 : 2 ^ i * yv ≤ 2 ^ i * |yv| := by
      rw [← habs1]; exact le_abs_self _
    have hy2 : -(2 ^ i * |yv|) ≤ 2 ^ i * yv := by
      rw [← habs1]; exact neg_abs_le _
    simp only [DivOK] at hok
    obtain ⟨hrd, hrest⟩ := hok
    have hzmod : ((xv % (L : ℤ)) - (uv % (L : ℤ)) - ((2 ^ i * (yv % (L : ℤ))) % (L : ℤ))) % (L : ℤ)
        = (xv - uv - 2 ^ i * yv) % (L : ℤ) := by
      rw [emod_mul_right L (2 ^ i) yv]
      exact emod_sub_sub L xv uv (2 ^ i * yv)
    have hβ : relu_deriv L
        (((xv % (L : ℤ)) - (uv % (L : ℤ)) - ((2 ^ i * (yv % (L : ℤ))) % (L : ℤ))) % (L : ℤ)) (ρs i)
        = if 0 ≤ xv - uv - 2 ^ i * yv then 1 else 0 := by
      refine relu_deriv_eval L _ (xv - uv - 2 ^ i * yv) (ρs i) hL hLe h64 ?_ ⟨?_, ?_⟩ hrd
      · rw [Int.emod_emod_of_dvd _ dvd_rfl]
        exact hzmod
      · linarith
      · linarith
    by_cases hpos : 0 ≤ xv - uv - 2 ^ i * yv
    · have hu' : ((uv % (L : ℤ)) + ((1 : ℤ) * ((2 ^ i * (yv % (L : ℤ))) % (L : ℤ))) % (L : ℤ)) % (L : ℤ)
          = (uv + 2 ^ i * yv) % (L : ℤ) := by
        rw [one_mul, Int.emod_emod_of_dvd _ dvd_rfl, emod_mul_right L (2 ^ i) yv]
        exact emod_add_add L uv (2 ^ i * yv)
      rw [hβ, if_pos hpos, hu'] at hrest
      obtain ⟨hbs, hbits, hlen, hge0, hle⟩ := ih (uv + 2 ^ i * yv) (by linarith) hrest
      have hgo : division_go L (xv % (L : ℤ)) (yv % (L : ℤ)) ρs (i + 1) (uv % (L : ℤ))
          = 2 ^ i + division_go L (xv % (L : ℤ)) (yv % (L : ℤ)) ρs i
              ((uv + 2 ^ i * yv) % (L : ℤ)) := by
        simp only [division_go]
        rw [hβ, if_pos hpos, hu', one_mul,
          Int.emod_eq_of_lt (by positivity : (0 : ℤ) ≤ 2 ^ i) (by linarith)]
        exact Int.emod_eq_of_lt (by linarith) (by linarith)
      have hbt : division_bits L (xv % (L : ℤ)) (yv % (L : ℤ)) ρs (i + 1) (uv % (L : ℤ))
          = 1 :: division_bits L (xv % (L : ℤ)) (yv % (L : ℤ)) ρs i
              ((uv + 2 ^ i * yv) % (L : ℤ)) := by
        simp only [division_bits]
        rw [hβ, if_pos hpos, hu']
      rw [hgo, hbt]
      refine ⟨?_, ?_, ?_, by linarith, ?_⟩
      · simp only [bitsum]
        rw [hlen, ← hbs, one_mul]
      · intro c hc
        rcases List.mem_cons.mp hc with h | h
        · right; exact h
        · exact hbits c h
      · simp [hlen]
      · linarith
    · have hu0 : ((uv % (L : ℤ)) + ((0 : ℤ) * ((2 ^ i * (yv % (L : ℤ))) % (L : ℤ))) % (L : ℤ)) % (L : ℤ)
          = uv % (L : ℤ) := by
        rw [zero_mul, Int.zero_emod, add_zero, Int.emod_emod_of_dvd _ dvd_rfl]
      rw [hβ, if_neg hpos, hu0] at hrest
      obtain ⟨hbs, hbits, hlen, hge0, hle⟩ := ih uv (by linarith) hrest
      have hgo : division_go L (xv % (L : ℤ)) (yv % (L : ℤ)) ρs (i + 1) (uv % (L : ℤ))
          = division_go L (xv % (L : ℤ)) (yv % (L : ℤ)) ρs i (uv % (L : ℤ)) := by
        simp only [division_go]
        rw [hβ, if_neg hpos, hu0, zero_mul, Int.zero_emod, zero_add]
        exact Int.emod_eq_of_lt hge0 (by linarith)
      have hbt : division_bits L (xv % (L : ℤ)) (yv % (L : ℤ)) ρs (i + 1) (uv % (L : ℤ))
          = 0 :: division_bits L (xv % (L : ℤ)) (yv % (L : ℤ)) ρs i (uv % (L : ℤ)) := by
        simp only [division_bits]
        rw [hβ, if_neg hpos, hu0]
      rw [hgo, hbt]
      refine ⟨?_, ?_, ?_, hge0, by linarith⟩
      · simp only [bitsum]
        rw [← hbs, zero_mul, zero_add]
      · intro c hc
        rcases List.mem_cons.mp hc with h | h
        · left; exact h
        · exact hbits c h
      · simp [hlen]

/-- With a negative dividend and a positive divisor, every trial comparison
in `division`'s loop answers 0: the used amount stays 0 and the revealed
quotient is 0 (not `floor(x / y)`, which would be negative). -/
theorem division_go_neg (L : ℕ) (xv yv : ℤ) (ρs : ℕ → RDRand)
    (hL : 4 ≤ L) (hLe : 2 ∣ L) (h64 : L ≤ 2 ^ 64)
    (hxneg : xv < 0) (hy : 1 ≤ yv) :
    ∀ i : ℕ,
      4 * (|xv| + 2 ^ i * yv) ≤ (L : ℤ) - 2 →
      DivOK L (xv % (L : ℤ)) (yv % (L : ℤ)) ρs i ((0 : ℤ) % (L : ℤ)) →
      division_go L (xv % (L : ℤ)) (yv % (L : ℤ)) ρs i ((0 : ℤ) % (L : ℤ)) = 0 := by
  intro i
  induction i with
  | zero =>
    intro _ _
    rfl
  | succ i ih =>
    intro hrange hok
    have hL4 : (4 : ℤ) ≤ (L : ℤ) := by exact_mod_cast hL
    have h2i0 : (0 : ℤ) < 2 ^ i := by positivity
    have hT1 : (2 : ℤ) ^ i ≤ 2 ^ i * yv := le_mul_of_one_le_right (by positivity) hy
    have hT2 : (4 : ℤ) * (|xv| + 2 ^ (i + 1) * yv) = 4 * |xv| + 8 * (2 ^ i * yv) := by ring
    rw [hT2] at hrange
    have habsx : |xv| = -xv := abs_of_neg hxneg
    simp only [DivOK] at hok
    obtain ⟨hrd, hrest⟩ := hok
    have hzmod : ((xv % (L : ℤ)) - ((0 : ℤ) % (L : ℤ)) - ((2 ^ i * (yv % (L : ℤ))) % (L : ℤ))) % (L : ℤ)
        = (xv - 0 - 2 ^ i * yv) % (L : ℤ) := by
      rw [emod_mul_right L (2 ^ i) yv]
      exact emod_sub_sub L xv 0 (2 ^ i * yv)
    have hβ : relu_deriv L
        (((xv % (L : ℤ)) - ((0 : ℤ) % (L : ℤ)) - ((2 ^ i * (yv % (L : ℤ))) % (L : ℤ))) % (L : ℤ)) (ρs i)
        = if 0 ≤ xv - 0 - 2 ^ i * yv then 1 else 0 := by
      refine relu_deriv_eval L _ (xv - 0 - 2 ^ i * yv) (ρs i) hL hLe h64 ?_ ⟨?_, ?_⟩ hrd
      · rw [Int.emod_emod_of_dvd _ dvd_rfl]
        exact hzmod
      · linarith
      · linarith
    have hu0 : (((0 : ℤ) % (L : ℤ)) + ((0 : ℤ) * ((2 ^ i * (yv % (L : ℤ))) % (L : ℤ))) % (L : ℤ)) % (L : ℤ)
        = (0 : ℤ) % (L : ℤ) := by
      rw [zero_mul, Int.zero_emod, add_zero, Int.zero_emod]
    rw [hβ, if_neg (by linarith), hu0] at hrest
    simp only [division_go]
    rw [hβ, if_neg (by linarith), hu0, ih (by linarith) hrest, zero_mul, Int.zero_emod,
      zero_add, Int.zero_emod]

/-- C10 (confirmed): in every execution of `division` with well-formed
per-step randomness and intermediates in the safe range, the decrypted output
is exactly the weighted sum `sum beta_i * 2 ^ i` of the per-step quotient bits
over the `b` trial positions, each bit is 0 or 1, hence the output lies in
`[0, 2 ^ b - 1]` and is never negative; in particular a negative dividend
with a positive divisor yields 0, not `floor(x / y)`. -/
theorem division_output_range (L : ℕ) (x y : ℤ) (b : ℕ) (ρs : ℕ → RDRand)
    (hL : 4 ≤ L) (hLe : 2 ∣ L) (h64 : L ≤ 2 ^ 64)
    (hrange : 4 * (|x| + 2 ^ b * (1 + |y|)) ≤ (L : ℤ) - 2)
    (hok : DivOK L (x % (L : ℤ)) (y % (L : ℤ)) ρs b 0) :
    toSigned L (division L (x % (L : ℤ)) (y % (L : ℤ)) (some b) ρs)
      = bitsum (division_bits L (x % (L : ℤ)) (y % (L : ℤ)) ρs b 0) ∧
    (∀ c ∈ division_bits L (x % (L : ℤ)) (y % (L : ℤ)) ρs b 0, c = 0 ∨ c = 1) ∧
    (division_bits L (x % (L : ℤ)) (y % (L : ℤ)) ρs b 0).length = b ∧
    0 ≤ toSigned L (division L (x % (L : ℤ)) (y % (L : ℤ)) (some b) ρs) ∧
    toSigned L (division L (x % (L : ℤ)) (y % (L : ℤ)) (some b) ρs) ≤ 2 ^ b - 1 ∧
    (x < 0 → 1 ≤ y →
      toSigned L (division L (x % (L : ℤ)) (y % (L : ℤ)) (some b) ρs) = 0) := by
  have hL4 : (4 : ℤ) ≤ (L : ℤ) := by exact_mod_cast hL
  have hyabs : (1 : ℤ) ≤ 1 + |y| := by linarith [abs_nonneg y]
  have hb1 : (2 : ℤ) ^ b ≤ 2 ^ b * (1 + |y|) := le_mul_of_one_le_right (by positivity) hyabs
  have hb0 : (0 : ℤ) < 2 ^ b := by positivity
  have hx0 : (0 : ℤ) ≤ |x| := abs_nonneg x
  have h0L : (0 : ℤ) % (L : ℤ) = 0 := Int.zero_emod _
  have hdiv : division L (x % (L : ℤ)) (y % (L : ℤ)) (some b) ρs
      = division_go L (x % (L : ℤ)) (y % (L : ℤ)) ρs b ((0 : ℤ) % (L : ℤ)) := by
    rw [h0L]
    rfl
  have hbitseq : division_bits L (x % (L : ℤ)) (y % (L : ℤ)) ρs b (0 : ℤ)
      = division_bits L (x % (L : ℤ)) (y % (L : ℤ)) ρs b ((0 : ℤ) % (L : ℤ)) := by
    rw [h0L]
  have hok' : DivOK L (x % (L : ℤ)) (y % (L : ℤ)) ρs b ((0 : ℤ) % (L : ℤ)) := by
    rw [h0L]
    exact hok
  obtain ⟨hbs, hbits, hlen, hge0, hle⟩ := division_go_bits L x y ρs hL hLe h64 b 0
    (by simp only [abs_zero, add_zero]; exact hrange) hok'
  have htos : toSigned L (division_go L (x % (L : ℤ)) (y % (L : ℤ)) ρs b ((0 : ℤ) % (L : ℤ)))
      = division_go L (x % (L : ℤ)) (y % (L : ℤ)) ρs b ((0 : ℤ) % (L : ℤ)) := by
    refine toSigned_nonneg_eq L _ hge0 (by linarith) ?_
    rw [get_max_val_field_cast L (by omega), Int.le_ediv_iff_mul_le (by norm_num : (0 : ℤ) < 2)]
    linarith
  rw [hdiv, hbitseq, htos]
  refine ⟨hbs, hbits, hlen, hge0, hle, ?_⟩
  intro hxneg hy1
  have hyy : 2 ^ b * y ≤ 2 ^ b * (1 + |y|) :=
    mul_le_mul_of_nonneg_left (by linarith [le_abs_self y]) (by positivity)
  exact division_go_neg L x y ρs hL hLe h64 hxneg hy1 b (by linarith) hok'

/-- Witness for `division_output_range`: dividend `-6`, divisor `3`, two trial
bits in field `2 ^ 16` — a legitimate execution whose revealed quotient is 0
(every trial bit answers 0), exercising the negative-dividend clause. -/
theorem division_output_range_witness :
    ((4 ≤ 2 ^ 16 ∧ 2 ∣ 2 ^ 16 ∧ 2 ^ 16 ≤ 2 ^ 64) ∧
      4 * (|(-6 : ℤ)| + 2 ^ 2 * (1 + |(3 : ℤ)|)) ≤ ((2 ^ 16 : ℕ) : ℤ) - 2 ∧
      DivOK (2 ^ 16) ((-6 : ℤ) % (2 ^ 16 : ℕ)) ((3 : ℤ) % (2 ^ 16 : ℕ))
        (fun i => rdr (if i = 1 then 48 else 36)) 2 0) ∧
    toSigned (2 ^ 16)
      (division (2 ^ 16) ((-6 : ℤ) % (2 ^ 16 : ℕ)) ((3 : ℤ) % (2 ^ 16 : ℕ)) (some 2)
        (fun i => rdr (if i = 1 then 48 else 36))) = 0 := by
  have hok : DivOK (2 ^ 16) ((-6 : ℤ) % (2 ^ 16 : ℕ)) ((3 : ℤ) % (2 ^ 16 : ℕ))
      (fun i => rdr (if i = 1 then 48 else 36)) 2 0 := by
    simp only [DivOK]
    refine ⟨?_, ?_, trivial⟩ <;> (unfold RDOK MSBOK PCRand.Valid rdr; decide)
  refine ⟨⟨⟨by norm_num, ⟨2 ^ 15, by norm_num⟩, by norm_num⟩, by decide, hok⟩, ?_⟩
  exact (division_output_range (2 ^ 16) (-6) 3 2
    (fun i => rdr (if i = 1 then 48 else 36))
    (by norm_num) ⟨2 ^ 15, by norm_num⟩ (by norm_num) (by decide) hok).2.2.2.2.2
    (by norm_num) (by norm_num)

/-! ### C3: `maxpool` -/

/-- `select_share` with selection bit 1 returns (the canonical value of) its
second operand. -/
theorem select_share_val_one (L : ℕ) (m v : ℤ) :
    select_share_val L 1 m (v % (L : ℤ)) = v % (L : ℤ) := by
  simp only [select_share_val, one_mul]
  rw [Int.emod_emod_of_dvd _ dvd_rfl, emod_add_right L m (v % (L : ℤ) - m),
    show m + (v % (L : ℤ) - m) = v % (L : ℤ) from by ring, Int.emod_emod_of_dvd _ dvd_rfl]

/-- `select_share` with selection bit 0 returns (the canonical value of) its
first operand. -/
theorem select_share_val_zero (L : ℕ) (m v : ℤ) :
    select_share_val L 0 (m % (L : ℤ)) v = m % (L : ℤ) := by
  simp only [select_share_val, zero_mul, Int.zero_emod, add_zero]
  exact Int.emod_emod_of_dvd _ dvd_rfl

theorem maxpool_spec_step (x : ℕ → ℤ) (i steps : ℕ) (mx ind : ℤ) :
    maxpool_spec x i (steps + 1) (mx, ind)
      = maxpool_spec x (i + 1) steps (if mx ≤ x i then (x i, (i : ℤ)) else (mx, ind)) := rfl

/-- The plaintext tournament `maxpool_spec` returns an upper bound of the
window that is attained at the index it reports, and every tying element of
the window lies at or before that index (ties replace, so the reported index
is the last-occurring argmax). -/
theorem maxpool_spec_charn (x : ℕ → ℤ) :
    ∀ steps i : ℕ, ∀ mx ind : ℤ,
      mx ≤ (maxpool_spec x i steps (mx, ind)).1 ∧
      (∀ k, i ≤ k → k < i + steps → x k ≤ (maxpool_spec x i steps (mx, ind)).1) ∧
      (maxpool_spec x i steps (mx, ind) = (mx, ind) ∨
        ∃ k, i ≤ k ∧ k < i + steps ∧
          maxpool_spec x i steps (mx, ind) = (x k, (k : ℤ))) ∧
      (∀ k, i ≤ k → k < i + steps → x k = (maxpool_spec x i steps (mx, ind)).1 →
        (k : ℤ) ≤ (maxpool_spec x i steps (mx, ind)).2) := by
  intro steps
  induction steps with
  | zero =>
    intro i mx ind
    refine ⟨le_refl _, ?_, Or.inl rfl, ?_⟩
    · intro k hk1 hk2
      exact absurd hk2 (by omega)
    · intro k hk1 hk2
      exact absurd hk2 (by omega)
  | succ steps ih =>
    intro i mx ind
    by_cases hc : mx ≤ x i
    · rw [maxpool_spec_step, if_pos hc]
      obtain ⟨ih1, ih2, ih3, ih4⟩ := ih (i + 1) (x i) ((i : ℤ))
      refine ⟨le_trans hc ih1, ?_, ?_, ?_⟩
      · intro k hk1 hk2
        rcases eq_or_lt_of_le hk1 with hk | hk
        · rw [← hk]
          exact ih1
        · exact ih2 k (by omega) (by omega)
      · rcases ih3 with h | ⟨k, hk1, hk2, h⟩
        · right
          exact ⟨i, le_refl i, by omega, h⟩
        · right
          exact ⟨k, by omega, by omega, h⟩
      · intro k hk1 hk2 hxk
        rcases eq_or_lt_of_le hk1 with hk | hk
        · rw [← hk]
          rcases ih3 with h | ⟨k', hk1', hk2', h⟩
          · rw [h]
          · rw [h]
            show (i : ℤ) ≤ (k' : ℤ)
            exact_mod_cast (by omega : i ≤ k')
        · exact ih4 k (by omega) (by omega) hxk
    · have hlt : x i < mx := by omega
      rw [maxpool_spec_step, if_neg hc]
      obtain ⟨ih1, ih2, ih3, ih4⟩ := ih (i + 1) mx ind
      refine ⟨ih1, ?_, ?_, ?_⟩
      · intro k hk1 hk2
        rcases eq_or_lt_of_le hk1 with hk | hk
        · rw [← hk]
          linarith
        · exact ih2 k (by omega) (by omega)
      · rcases ih3 with h | ⟨k, hk1', hk2', h⟩
        · left
          exact h
        · right
          exact ⟨k, by omega, by omega, h⟩
      · intro k hk1 hk2 hxk
        rcases eq_or_lt_of_le hk1 with hk | hk
        · rw [← hk] at hxk
          linarith
        · exact ih4 k (by omega) (by omega) hxk

/-- The tournament loop of `maxpool` computes the plaintext tournament
`maxpool_spec`, element-wise modulo `L`, whenever the randomness is
well-formed and all elements are in the safe range. -/
theorem maxpool_go_eval (L : ℕ) (x : ℕ → ℤ) (ρs : ℕ → RDRand)
    (hL : 4 ≤ L) (hLe : 2 ∣ L) (h64 : L ≤ 2 ^ 64) :
    ∀ steps : ℕ, ∀ i : ℕ, ∀ mx ind : ℤ,
      8 * |mx| ≤ (L : ℤ) - 2 →
      (∀ k, i ≤ k → k < i + steps → 8 * |x k| ≤ (L : ℤ) - 2) →
      MaxOK L x ρs i steps (mx % (L : ℤ), ind % (L : ℤ)) →
      maxpool_go L x ρs i steps (mx % (L : ℤ), ind % (L : ℤ))
        = ((maxpool_spec x i steps (mx, ind)).1 % (L : ℤ),
           (maxpool_spec x i steps (mx, ind)).2 % (L : ℤ)) := by
  intro steps
  induction steps with
  | zero =>
    intro i mx ind _ _ _
    rfl
  | succ steps ih =>
    intro i mx ind hmx hwin hok
    have hxi : 8 * |x i| ≤ (L : ℤ) - 2 := hwin i (le_refl i) (by omega)
    have habs : |x i - mx| ≤ |x i| + |mx| := by
      calc |x i - mx| = |x i + -mx| := by rw [sub_eq_add_neg]
        _ ≤ |x i| + |-mx| := abs_add _ _
        _ = |x i| + |mx| := by rw [abs_neg]
    have ht1 : x i - mx ≤ |x i| + |mx| := le_trans (le_abs_self _) habs
    have ht2 : -(|x i| + |mx|) ≤ x i - mx := by
      have h := neg_abs_le (x i - mx)
      linarith
    simp only [MaxOK] at hok
    obtain ⟨hrd, hrest⟩ := hok
    have hβ : relu_deriv L ((x i - mx % (L : ℤ)) % (L : ℤ)) (ρs i)
        = if 0 ≤ x i - mx then 1 else 0 := by
      refine relu_deriv_eval L _ (x i - mx) (ρs i) hL hLe h64 ?_ ⟨?_, ?_⟩ hrd
      · rw [Int.emod_emod_of_dvd _ dvd_rfl]
        exact emod_sub_right L (x i) mx
      · linarith
      · linarith
    simp only [maxpool_go]
    rw [hβ] at hrest ⊢
    by_cases hc : 0 ≤ x i - mx
    · rw [if_pos hc] at hrest ⊢
      rw [select_share_val_one L (mx % (L : ℤ)) (x i),
        select_share_val_one L (ind % (L : ℤ)) ((i : ℤ))] at hrest ⊢
      rw [ih (i + 1) (x i) ((i : ℤ)) hxi (fun k hk1 hk2 => hwin k (by omega) (by omega)) hrest]
      rw [maxpool_spec_step, if_pos (by linarith : mx ≤ x i)]
    · rw [if_neg hc] at hrest ⊢
      rw [select_share_val_zero L mx (x i % (L : ℤ)),
        select_share_val_zero L ind ((i : ℤ) % (L : ℤ))] at hrest ⊢
      rw [ih (i + 1) mx ind hmx (fun k hk1 hk2 => hwin k (by omega) (by omega)) hrest]
      rw [maxpool_spec_step, if_neg (by omega : ¬ mx ≤ x i)]

/-- C3 (corrected), counterexample: the spec's own scenario — field `2 ^ 33`,
`x = [3, -1, 7, 7]`, a legitimate execution with well-formed randomness at
every tournament step.  The claim expects `(max, index) = (7, 2)` (first
occurrence), but the revealed result is `(7, 3)`: the tournament's comparison
`relu_deriv(x[k] - max)` answers 1 on the tie `7 - 7 = 0`, so `select_share`
replaces the running maximum and index, and the last occurrence wins. -/
theorem maxpool_tie_cex :
    MaxOK (2 ^ 33) (fun i => if i = 0 then (3 : ℤ) else if i = 1 then -1 else 7)
      (fun i => rdr (if i = 1 then 16 else 0)) 1 3 ((3 : ℤ) % ((2 ^ 33 : ℕ) : ℤ), 0) ∧
    (toSigned (2 ^ 33) (maxpool (2 ^ 33) 4
        (fun i => if i = 0 then (3 : ℤ) else if i = 1 then -1 else 7)
        (fun i => rdr (if i = 1 then 16 else 0))).1,
     toSigned (2 ^ 33) (maxpool (2 ^ 33) 4
        (fun i => if i = 0 then (3 : ℤ) else if i = 1 then -1 else 7)
        (fun i => rdr (if i = 1 then 16 else 0))).2) = ((7 : ℤ), 3) ∧
    ((7 : ℤ), (3 : ℤ)) ≠ (7, 2) := by
  refine ⟨?_, by decide, by decide⟩
  simp only [MaxOK]
  refine ⟨?_, ?_, ?_, trivial⟩ <;> (unfold RDOK MSBOK PCRand.Valid rdr; decide)

/-- C3 (corrected), amended: for every non-empty flat tensor (length `n`,
elements in the safe range `8 |x k| ≤ L - 2`, `4 n ≤ L - 2`) in an execution
with well-formed randomness at every step, `decrypt(maxpool(share(x)))`
returns the true maximum together with its LAST-occurring flat index — not
the first-occurring one: the tournament replaces the running maximum whenever
the new element is greater than OR EQUAL to it (`relu_deriv` answers 1 on
ties, see `maxpool_tie_cex`). -/
theorem maxpool_correct_amended (L : ℕ) (n : ℕ) (x : ℕ → ℤ) (ρs : ℕ → RDRand)
    (hL : 4 ≤ L) (hLe : 2 ∣ L) (h64 : L ≤ 2 ^ 64) (hn : 1 ≤ n)
    (hnL : 4 * (n : ℤ) ≤ (L : ℤ) - 2)
    (hx : ∀ k, k < n → 8 * |x k| ≤ (L : ℤ) - 2)
    (hok : MaxOK L x ρs 1 (n - 1) (x 0 % (L : ℤ), 0)) :
    (∀ k, k < n → x k ≤ toSigned L (maxpool L n x ρs).1) ∧
    (∃ k, k < n ∧ toSigned L (maxpool L n x ρs).1 = x k ∧
      toSigned L (maxpool L n x ρs).2 = (k : ℤ)) ∧
    (∀ k, k < n → x k = toSigned L (maxpool L n x ρs).1 →
      (k : ℤ) ≤ toSigned L (maxpool L n x ρs).2) := by
  have hL4 : (4 : ℤ) ≤ (L : ℤ) := by exact_mod_cast hL
  have h0L : (0 : ℤ) % (L : ℤ) = 0 := Int.zero_emod _
  have hgo : maxpool L n x ρs
      = maxpool_go L x ρs 1 (n - 1) (x 0 % (L : ℤ), (0 : ℤ) % (L : ℤ)) := by
    rw [h0L]
    rfl
  have hok' : MaxOK L x ρs 1 (n - 1) (x 0 % (L : ℤ), (0 : ℤ) % (L : ℤ)) := by
    rw [h0L]
    exact hok
  have heval := maxpool_go_eval L x ρs hL hLe h64 (n - 1) 1 (x 0) 0
    (hx 0 (by omega)) (fun k hk1 hk2 => hx k (by omega)) hok'
  obtain ⟨hc1, hc2, hc3, hc4⟩ := maxpool_spec_charn x (n - 1) 1 (x 0) 0
  obtain ⟨k0, hk0n, hs1, hs2⟩ :
      ∃ k0, k0 < n ∧ (maxpool_spec x 1 (n - 1) (x 0, 0)).1 = x k0 ∧
        (maxpool_spec x 1 (n - 1) (x 0, 0)).2 = (k0 : ℤ) := by
    rcases hc3 with h | ⟨k, hk1, hk2, h⟩
    · exact ⟨0, by omega, by rw [h], by rw [h]; simp⟩
    · exact ⟨k, by omega, by rw [h], by rw [h]⟩
  have h8 : 8 * |x k0| ≤ (L : ℤ) - 2 := hx k0 hk0n
  have hM : toSigned L (maxpool L n x ρs).1 = (maxpool_spec x 1 (n - 1) (x 0, 0)).1 := by
    rw [hgo, heval]
    show toSigned L ((maxpool_spec x 1 (n - 1) (x 0, 0)).1 % (L : ℤ)) = _
    rw [toSigned_congr L _ (maxpool_spec x 1 (n - 1) (x 0, 0)).1
      (Int.emod_emod_of_dvd _ dvd_rfl)]
    rw [hs1]
    exact toSigned_eq_self L (x k0) (by omega)
      (by linarith [neg_abs_le (x k0)]) (by linarith [le_abs_self (x k0)])
  have hJ : toSigned L (maxpool L n x ρs).2 = (maxpool_spec x 1 (n - 1) (x 0, 0)).2 := by
    rw [hgo, heval]
    show toSigned L ((maxpool_spec x 1 (n - 1) (x 0, 0)).2 % (L : ℤ)) = _
    rw [toSigned_congr L _ (maxpool_spec x 1 (n - 1) (x 0, 0)).2
      (Int.emod_emod_of_dvd _ dvd_rfl)]
    rw [hs2]
    have hk0z : (0 : ℤ) ≤ (k0 : ℤ) := by exact_mod_cast Nat.zero_le k0
    have hk0n' : (k0 : ℤ) < (n : ℤ) := by exact_mod_cast hk0n
    exact toSigned_eq_self L ((k0 : ℤ)) (by omega) (by linarith) (by linarith)
  refine ⟨?_, ⟨k0, hk0n, ?_, ?_⟩, ?_⟩
  · intro k hk
    rw [hM]
    rcases Nat.eq_zero_or_pos k with h0 | h1
    · rw [h0]
      exact hc1
    · exact hc2 k (by omega) (by omega)
  · rw [hM]
    exact hs1
  · rw [hJ]
    exact hs2
  · intro k hk hxk
    rw [hJ]
    rw [hM] at hxk
    rcases Nat.eq_zero_or_pos k with h0 | h1
    · rw [h0, hs2]
      exact_mod_cast Nat.zero_le k0
    · exact hc4 k (by omega) (by omega) hxk

set_option maxRecDepth 4000 in
/-- Witness for `maxpool_correct_amended`: the `[3, -1, 7, 7]` scenario over
field `2 ^ 33`; the revealed pair is a maximum attained at the reported
index. -/
theorem maxpool_correct_amended_witness :
    ((4 ≤ 2 ^ 33 ∧ 2 ∣ 2 ^ 33 ∧ 2 ^ 33 ≤ 2 ^ 64) ∧ 1 ≤ 4 ∧
      4 * ((4 : ℕ) : ℤ) ≤ ((2 ^ 33 : ℕ) : ℤ) - 2 ∧
      (∀ k, k < 4 →
        8 * |(fun i => if i = 0 then (3 : ℤ) else if i = 1 then -1 else 7) k|
          ≤ ((2 ^ 33 : ℕ) : ℤ) - 2) ∧
      MaxOK (2 ^ 33) (fun i => if i = 0 then (3 : ℤ) else if i = 1 then -1 else 7)
        (fun i => rdr (if i = 1 then 16 else 0)) 1 (4 - 1)
        ((fun i => if i = 0 then (3 : ℤ) else if i = 1 then -1 else 7) 0
          % ((2 ^ 33 : ℕ) : ℤ), 0)) ∧
    (∃ k : ℕ, k < 4 ∧
      toSigned (2 ^ 33) (maxpool (2 ^ 33) 4
          (fun i => if i = 0 then (3 : ℤ) else if i = 1 then -1 else 7)
          (fun i => rdr (if i = 1 then 16 else 0))).1
        = (fun i => if i = 0 then (3 : ℤ) else if i = 1 then -1 else 7) k ∧
      toSigned (2 ^ 33) (maxpool (2 ^ 33) 4
          (fun i => if i = 0 then (3 : ℤ) else if i = 1 then -1 else 7)
          (fun i => rdr (if i = 1 then 16 else 0))).2 = (k : ℤ)) := by
  have hok : MaxOK (2 ^ 33) (fun i => if i = 0 then (3 : ℤ) else if i = 1 then -1 else 7)
      (fun i => rdr (if i = 1 then 16 else 0)) 1 (4 - 1)
      ((fun i => if i = 0 then (3 : ℤ) else if i = 1 then -1 else 7) 0
        % ((2 ^ 33 : ℕ) : ℤ), 0) := by
    simp only [MaxOK]
    refine ⟨?_, ?_, ?_, trivial⟩ <;> (unfold RDOK MSBOK PCRand.Valid rdr; decide)
  refine ⟨⟨⟨by norm_num, ⟨2 ^ 32, by norm_num⟩, by norm_num⟩, by norm_num,
    by norm_num, by decide, hok⟩, ?_⟩
  exact (maxpool_correct_amended (2 ^ 33) 4
    (fun i => if i = 0 then (3 : ℤ) else if i = 1 then -1 else 7)
    (fun i => rdr (if i = 1 then 16 else 0))
    (by norm_num) ⟨2 ^ 32, by norm_num⟩ (by norm_num) (by norm_num) (by norm_num)
    (by decide) hok).2.1

end SecureNN
